import Mathlib

/-!
Verification of the FDSSL front end (repository `montymxb/FDSSL`).

The repository's `src/main.rs` declares `mod syntax; mod parser;` and calls
`parser::program` on a sample string, but the files `syntax.rs` and
`parser.rs` themselves are not part of the snapshot: only their caller
`main.rs` is.  The data model and every parsing rule below are therefore
modelled from the specification (its §3 data model, §4.2 rule inventory,
§6 grammar and §7 error design), and `mainOutput` is modelled from the
code of `main.rs` that is present.

The parser is a recursive-descent parser over a `List Char` together with
an absolute character offset.  Every rule consumes a prefix of the
remaining input and returns the parsed value, the unconsumed remainder and
the new offset, or fails with a `ParseError` carrying the offset reached
and the expected construct.
-/

namespace FDSSL

/-- Modelled from the spec (§3, missing `syntax.rs`): the `Type` data model,
`Int` or `Array(T)`.  Named `Ty` because `Type` is reserved in Lean. -/
inductive Ty where
  | Int : Ty
  | Array (t : Ty) : Ty
deriving DecidableEq, Repr

/-- Modelled from the spec (§3, missing `syntax.rs`): the `Expr` data model
with the three attested node kinds `I`, `Vect` and `DefMut`. -/
inductive Expr where
  | I (n : Int) : Expr
  | Vect ( is_matrix : Bool) (datatype : Ty) (value : List Expr) : Expr
  | DefMut (name : String) (value : Expr) : Expr

/-- Modelled from the spec (§4.2 block rule, §6 grammar, missing
`parser.rs`): the content of a brace-delimited block is a sequence of
items, each either a nested block, an integer literal, or a run of
other non-brace text. -/
inductive BlockItem where
  | blk (items : List BlockItem) : BlockItem
  | lit (n : Int) : BlockItem
  | chunk (s : String) : BlockItem

/-- Modelled from the spec (§6 grammar, missing `parser.rs`): the right
hand side of a `name : rhs` binding is a type or a bare identifier. -/
inductive BindingRhs where
  | ty (t : Ty) : BindingRhs
  | ident (name : String) : BindingRhs

/-- Modelled from the spec (§6 grammar, missing `parser.rs`): one entry of
a parameter or result list; `rhs = none` is a bare identifier entry, as in
the result list `(a, b)` of the sample program. -/
structure Binding where
  name : String
  rhs : Option BindingRhs

/-- Modelled from the spec (§4.2 declaration rule, §6 grammar, missing
`parser.rs`): a top-level declaration
`name (params) -> (results) block+`.  The §6 grammar shows three blocks
for the sample input while §8's concrete scenario has a single block, so
the block count is one-or-more. -/
structure Decl where
  name : String
  params : List Binding
  results : List Binding
  blocks : List (List BlockItem)

/-- Modelled from the spec (§7, missing `parser.rs`): the single error
kind, carrying the character offset reached and the expected construct. -/
structure ParseError where
  offset : Nat
  expected : String
deriving DecidableEq, Repr

/-- Result of a parsing rule: the parsed value, the unconsumed remainder
and the new absolute offset, or a `ParseError`. -/
abbrev PRes (α : Type) := Except ParseError (α × List Char × Nat)

/-- Identifier continuation characters: letters, digits and underscore. -/
def isIdentChar (c : Char) : Bool := c.isAlpha || c.isDigit || c = '_'

/-- Characters that may appear in a non-brace text chunk inside a block. -/
def isChunkChar (c : Char) : Bool := !(c = '{' || c = '}' || c.isWhitespace)

/-- Length of the run of insignificant whitespace at the front of `s`. -/
def wsLen (s : List Char) : Nat := (s.takeWhile (fun c => c.isWhitespace)).length

/-- Modelled from the spec (§4.2 identifier rule, missing `parser.rs`):
a name token, a letter followed by letters, digits or underscores. -/
def identP (s : List Char) (pos : Nat) : PRes String :=
  match s with
  | c :: rest =>
    if c.isAlpha then
      .ok (String.mk (c :: rest.takeWhile isIdentChar),
           rest.drop (rest.takeWhile isIdentChar).length,
           pos + (1 + (rest.takeWhile isIdentChar).length))
    else .error ⟨pos, "identifier"⟩
  | [] => .error ⟨pos, "identifier"⟩

/-- Modelled from the spec (§4.2 type rule, §6 grammar, missing
`parser.rs`): `type := "Int" | "[" type "]"`, producing a `Ty`. -/
def tyP : List Char → Nat → PRes Ty
  | 'I' :: 'n' :: 't' :: rest, pos => .ok (.Int, rest, pos + 3)
  | '[' :: rest, pos =>
    match tyP rest (pos + 1) with
    | .ok (t, rest2, pos2) =>
      match rest2 with
      | ']' :: rest3 => .ok (.Array t, rest3, pos2 + 1)
      | _ => .error ⟨pos2, "closing bracket"⟩
    | .error e => .error e
  | _, pos => .error ⟨pos, "type"⟩

/-- Modelled from the spec (§4.2 strategy and §4.2 error policy, missing
`parser.rs`): ordered choice with backtracking; when both alternatives
fail, the reported error is the one from the alternative that consumed
the most input before failing, i.e. the one with the larger offset. -/
def porElse {α : Type} (p q : List Char → Nat → PRes α)
    (s : List Char) (pos : Nat) : PRes α :=
  match p s pos with
  | .ok r => .ok r
  | .error e1 =>
    match q s pos with
    | .ok r => .ok r
    | .error e2 => .error (if e1.offset < e2.offset then e2 else e1)

/-- Type alternative for a binding right hand side. -/
def tyRhsP (s : List Char) (pos : Nat) : PRes BindingRhs :=
  match tyP s pos with
  | .ok (t, r, p) => .ok (.ty t, r, p)
  | .error e => .error e

/-- Bare-identifier alternative for a binding right hand side. -/
def identRhsP (s : List Char) (pos : Nat) : PRes BindingRhs :=
  match identP s pos with
  | .ok (n, r, p) => .ok (.ident n, r, p)
  | .error e => .error e

/-- Right hand side of a binding: a type, or else a bare identifier. -/
def rhsP : List Char → Nat → PRes BindingRhs := porElse tyRhsP identRhsP

/-- Modelled from the spec (§6 grammar, missing `parser.rs`):
`binding := identifier (":" (type | identifier))?`; the optional part is
absent in bare entries such as the sample's result list `(a, b)`. -/
def bindingP (s : List Char) (pos : Nat) : PRes Binding :=
  match identP s pos with
  | .error e => .error e
  | .ok (name, s1, p1) =>
    match s1.drop (wsLen s1) with
    | c :: s3 =>
      if c = ':' then
        match rhsP (s3.drop (wsLen s3)) (p1 + wsLen s1 + 1 + wsLen s3) with
        | .ok (rhs, s5, p5) => .ok (⟨name, some rhs⟩, s5, p5)
        | .error e => .error e
      else .ok (⟨name, none⟩, s1.drop (wsLen s1), p1 + wsLen s1)
    | [] => .ok (⟨name, none⟩, s1.drop (wsLen s1), p1 + wsLen s1)

/-- Modelled from the spec (§6 grammar, missing `parser.rs`): the
`("," binding)*` tail of a parameter list.  On the first token that is
not a comma the loop stops and backtracks to the state before the
attempt, returning the accumulated bindings.  The first argument is
recursion fuel; callers pass the length of the remaining input, which
suffices because every iteration consumes at least one character, so the
zero-fuel cut-off after a successful binding is never reached. -/
def bindingsLoop : Nat → List Char → Nat → List Binding → PRes (List Binding)
  | n, s, pos, acc =>
    match s.drop (wsLen s) with
    | c :: s2 =>
      if c = ',' then
        match bindingP (s2.drop (wsLen s2)) (pos + wsLen s + 1 + wsLen s2) with
        | .ok (b, s4, p4) =>
          match n with
          | m + 1 => bindingsLoop m s4 p4 (b :: acc)
          | 0 => .ok ((b :: acc).reverse, s4, p4)
        | .error e => .error e
      else .ok (acc.reverse, s, pos)
    | [] => .ok (acc.reverse, s, pos)

/-- Modelled from the spec (§4.2 parameter-list rule, §6 grammar, missing
`parser.rs`): `param-list := "(" (binding ("," binding)*)? ")"`. -/
def paramsP (s : List Char) (pos : Nat) : PRes (List Binding) :=
  match s with
  | c :: s1 =>
    if c = '(' then
      match s1.drop (wsLen s1) with
      | d :: s2 =>
        if d = ')' then .ok ([], s2, pos + 1 + wsLen s1 + 1)
        else
          match bindingP (s1.drop (wsLen s1)) (pos + 1 + wsLen s1) with
          | .error e => .error e
          | .ok (b, s3, p3) =>
            match bindingsLoop s3.length s3 p3 [b] with
            | .error e => .error e
            | .ok (bs, s4, p4) =>
              match s4.drop (wsLen s4) with
              | e :: s5 =>
                if e = ')' then .ok (bs, s5, p4 + wsLen s4 + 1)
                else .error ⟨p4 + wsLen s4, "closing parenthesis"⟩
              | [] => .error ⟨p4 + wsLen s4, "closing parenthesis"⟩
      | [] => .error ⟨pos + 1 + wsLen s1, "closing parenthesis"⟩
    else .error ⟨pos, "opening parenthesis"⟩
  | [] => .error ⟨pos, "opening parenthesis"⟩

/-- Value of a run of decimal digit characters. -/
def digitsToNat (l : List Char) : Nat := l.foldl (fun a c => a * 10 + (c.toNat - 48)) 0

/-- Modelled from the spec (§4.2 block rule, §6 grammar, missing
`parser.rs`): the balanced-brace machine for
`block := "\x7b" (block | anything-not-brace)* "\x7d"`, run after the
opening brace has been consumed.  The first argument is recursion fuel;
callers pass the length of the remaining input, which suffices because
every step consumes at least one character, so fuel can only run out on
an already-empty input, where the genuine end-of-input failure fires.
`acc` holds the items of the block
being built (newest first) and `stack` the item lists of the enclosing
blocks, so that an inner closing brace pops one level instead of
terminating the outer block; running out of input with an open brace
pending is a parse failure at the end-of-input offset. -/
def blockSteps : Nat → List Char → Nat → List BlockItem →
    List (List BlockItem) → PRes (List BlockItem)
  | _, [], pos, _, _ => .error ⟨pos, "closing brace"⟩
  | 0, _ :: _, pos, _, _ => .error ⟨pos, "closing brace"⟩
  | m + 1, c :: rest, pos, acc, stack =>
    if c = '}' then
      match stack with
      | [] => .ok (acc.reverse, rest, pos + 1)
      | top :: stk =>
        blockSteps m rest (pos + 1) (BlockItem.blk acc.reverse :: top) stk
    else if c = '{' then
      blockSteps m rest (pos + 1) [] (acc :: stack)
    else if c.isWhitespace then
      blockSteps m (rest.drop (rest.takeWhile (fun x => x.isWhitespace)).length)
        (pos + 1 + (rest.takeWhile (fun x => x.isWhitespace)).length)
        acc stack
    else if c.isDigit then
      blockSteps m (rest.drop (rest.takeWhile (fun x => x.isDigit)).length)
        (pos + 1 + (rest.takeWhile (fun x => x.isDigit)).length)
        (BlockItem.lit (Int.ofNat
          (digitsToNat (c :: rest.takeWhile (fun x => x.isDigit)))) :: acc)
        stack
    else
      blockSteps m (rest.drop (rest.takeWhile isChunkChar).length)
        (pos + 1 + (rest.takeWhile isChunkChar).length)
        (BlockItem.chunk (String.mk (c :: rest.takeWhile isChunkChar)) :: acc)
        stack

/-- Modelled from the spec (§4.2 block rule, missing `parser.rs`): a
block is an opening brace followed by the balanced-brace machine; any
other first character fails at its offset. -/
def blockP (s : List Char) (pos : Nat) : PRes (List BlockItem) :=
  match s with
  | c :: s1 =>
    if c = '{' then blockSteps s1.length s1 (pos + 1) [] []
    else .error ⟨pos, "opening brace"⟩
  | [] => .error ⟨pos, "opening brace"⟩

/-- Modelled from the spec (§4.2 declaration rule, missing `parser.rs`):
the `block*` tail of a declaration, after its first, mandatory block.
On a token that does not open a block the loop stops and backtracks to
the state before the attempt.  The first argument is recursion fuel;
callers pass the length of the remaining input, which suffices because
every block consumes at least one character, so the zero-fuel cut-off
after a successful block is never reached. -/
def blocksLoop : Nat → List Char → Nat → List (List BlockItem) →
    PRes (List (List BlockItem))
  | n, s, pos, acc =>
    match blockP (s.drop (wsLen s)) (pos + wsLen s) with
    | .ok (b, s2, p2) =>
      match n with
      | m + 1 => blocksLoop m s2 p2 (b :: acc)
      | 0 => .ok ((b :: acc).reverse, s2, p2)
    | .error _ => .ok (acc.reverse, s, pos)

/-- Modelled from the spec (§4.2 declaration rule, §6 grammar, missing
`parser.rs`): a top-level declaration
`identifier param-list "->" param-list block+`.  The arrow is the
two-character token `->`; at least one block is required, and further
blocks are collected by `blocksLoop`. -/
def declP (s : List Char) (pos : Nat) : PRes Decl :=
  match identP s pos with
  | .error e => .error e
  | .ok (name, s1, p1) =>
    match paramsP (s1.drop (wsLen s1)) (p1 + wsLen s1) with
    | .error e => .error e
    | .ok (ps, s2, p2) =>
      match s2.drop (wsLen s2) with
      | c :: d :: s3 =>
        if c = '-' ∧ d = '>' then
          match paramsP (s3.drop (wsLen s3)) (p2 + wsLen s2 + 2 + wsLen s3) with
          | .error e => .error e
          | .ok (rs, s4, p4) =>
            match blockP (s4.drop (wsLen s4)) (p4 + wsLen s4) with
            | .error e => .error e
            | .ok (b1, s5, p5) =>
              match blocksLoop s5.length s5 p5 [b1] with
              | .error e => .error e
              | .ok (blks, s6, p6) => .ok (⟨name, ps, rs, blks⟩, s6, p6)
        else .error ⟨p2 + wsLen s2, "arrow"⟩
      | _ => .error ⟨p2 + wsLen s2, "arrow"⟩

/-- Modelled from the spec (§4.2 program rule, §6 grammar, missing
`parser.rs`): `program := declaration+`, skipping insignificant
whitespace between items.  If the very first declaration fails its error
is the program error; once at least one declaration has been parsed, a
failing further attempt stops the loop and backtracks to the state
before the attempt, leaving any trailing text unconsumed.  The first
argument is recursion fuel; `programL` passes the input length, which
suffices because every declaration consumes at least one character, so
the zero-fuel cut-off after a successful declaration is never reached. -/
def declsLoop : Nat → List Char → Nat → List Decl → PRes (List Decl)
  | n, s, pos, acc =>
    match declP (s.drop (wsLen s)) (pos + wsLen s) with
    | .ok (d, s2, p2) =>
      match n with
      | m + 1 => declsLoop m s2 p2 (d :: acc)
      | 0 => .ok ((d :: acc).reverse, s2, p2)
    | .error e =>
      match acc with
      | [] => .error e
      | _ => .ok (acc.reverse, s, pos)

/-- Modelled from the spec (§2, §4.2, missing `parser.rs`): a `Program`
is the ordered sequence of top-level declarations. -/
abbrev Program := List Decl

/-- Modelled from the spec (§4.2, missing `parser.rs`): the parser entry
rule on a character list, starting at offset `0` with no declarations
accumulated. -/
def programL (s : List Char) : PRes Program := declsLoop s.length s 0 []

/-- Modelled from the spec (§4.2, missing `parser.rs`): the entry
operation `program(input) -> Result`, on a source string. -/
def program (s : String) : PRes Program := programL s.data

/-- The fixed fallback message printed by the sample caller in
`src/main.rs` when parsing fails. -/
def mainFallback : String := "Error: Not a function"

/-- Model of the caller `main` in `src/main.rs` (lines 12-16): it matches
on the result of `program`; on `Ok((_, a))` it discards the first
component of the pair and prints the second, which Rust unifies with the
string literal fallback, so it is a plain string; on any other outcome it
prints the fixed fallback message.  The model is polymorphic in the error
type and in the discarded first component because `main` inspects
neither. -/
def mainOutput {ε ρ : Type} (res : Except ε (ρ × String)) : String :=
  match res with
  | .ok (_, a) => a
  | .error _ => mainFallback

/-- Canonical printer for types: `Int` or a bracketed array type. -/
def renderTy : Ty → List Char
  | .Int => ['I', 'n', 't']
  | .Array t => '[' :: (renderTy t ++ [']'])

/-- Decimal digit characters of a positive number, most significant
first. -/
def natDigits (n : Nat) : List Char :=
  (Nat.digits 10 n).reverse.map (fun d => Char.ofNat (48 + d))

/-- Canonical decimal rendering of a natural number. -/
def renderNat (n : Nat) : List Char := if n = 0 then ['0'] else natDigits n

/-- The chain of singly-nested empty blocks: `blkChain k` is the block
item written with `k + 1` balanced brace pairs. -/
def blkChain : Nat → BlockItem
  | 0 => .blk []
  | k + 1 => .blk [blkChain k]

/-- Item list of a block whose body is braces nested to depth `N + 1`:
empty for depth one, otherwise the single chain item for the inner
nesting. -/
def nestItems : Nat → List BlockItem
  | 0 => []
  | m + 1 => [blkChain m]

mutual
/-- Canonical printer for one block item: a nested block in braces, a
decimal literal, or a raw text chunk. -/
def renderItem : BlockItem → List Char
  | .blk items => '\x7b' :: (renderItems items ++ [' ', '\x7d'])
  | .lit n => renderNat n.toNat
  | .chunk s => s.data
/-- Canonical printer for a block body: each item preceded by one
space. -/
def renderItems : List BlockItem → List Char
  | [] => []
  | i :: is => ' ' :: (renderItem i ++ renderItems is)
end

/-- Canonical printer for a block: the body between braces, with a space
before the closing brace. -/
def renderBlock (items : List BlockItem) : List Char :=
  '\x7b' :: (renderItems items ++ [' ', '\x7d'])

/-- Canonical printer for a binding right hand side. -/
def renderRhs : BindingRhs → List Char
  | .ty t => renderTy t
  | .ident m => m.data

/-- Canonical printer for one parameter-list entry. -/
def renderBinding : Binding → List Char
  | ⟨n, none⟩ => n.data
  | ⟨n, some r⟩ => n.data ++ (':' :: ' ' :: renderRhs r)

/-- Canonical printer for the comma-separated entries of a parameter
list. -/
def renderBindings : List Binding → List Char
  | [] => []
  | [b] => renderBinding b
  | b :: bs => renderBinding b ++ (',' :: ' ' :: renderBindings bs)

/-- Canonical printer for a parenthesized parameter list. -/
def renderParams (bs : List Binding) : List Char :=
  '(' :: (renderBindings bs ++ [')'])

/-- Canonical printer for the block list of a declaration: each block
preceded by one space. -/
def renderBlocks : List (List BlockItem) → List Char
  | [] => []
  | b :: bs => ' ' :: (renderBlock b ++ renderBlocks bs)

/-- Canonical printer for a top-level declaration. -/
def renderDecl (d : Decl) : List Char :=
  d.name.data ++ (' ' :: renderParams d.params) ++
    (' ' :: '-' :: '>' :: ' ' :: renderParams d.results) ++
    renderBlocks d.blocks

/-- A string usable as an identifier: nonempty, starting with a letter,
continuing with letters, digits or underscores. -/
def validIdent (s : String) : Bool :=
  match s.data with
  | [] => false
  | c :: rest => c.isAlpha && rest.all isIdentChar

/-- A binding right hand side whose rendering parses back to itself: a
type always does; a bare identifier must be a valid identifier and must
not begin with the three characters `Int`, which the type alternative of
the ordered choice would consume first. -/
def ValidRhs : BindingRhs → Bool
  | .ty _ => true
  | .ident m => validIdent m && decide (m.data.take 3 ≠ ['I', 'n', 't'])

/-- A parameter-list entry whose rendering parses back to itself. -/
def ValidBinding : Binding → Bool
  | ⟨n, none⟩ => validIdent n
  | ⟨n, some r⟩ => validIdent n && ValidRhs r

mutual
/-- A block item whose rendering parses back to itself: literals are
nonnegative (the grammar has no sign), and a text chunk is a nonempty
run of non-brace, non-whitespace characters not starting with a digit
(which would parse as a literal). -/
def ValidItem : BlockItem → Bool
  | .blk items => ValidItems items
  | .lit n => decide (0 ≤ n)
  | .chunk s =>
    match s.data with
    | [] => false
    | c :: rest => isChunkChar c && !c.isDigit && rest.all isChunkChar
/-- All items of a block body are valid. -/
def ValidItems : List BlockItem → Bool
  | [] => true
  | i :: is => ValidItem i && ValidItems is
end

/-- A top-level declaration whose canonical rendering parses back to
itself: a valid name, valid parameter and result entries, and at least
one block, all of whose items are valid. -/
def ValidDecl (d : Decl) : Bool :=
  validIdent d.name && d.params.all ValidBinding && d.results.all ValidBinding
    && !d.blocks.isEmpty && d.blocks.all (fun b => ValidItems b)

/-- The `("," binding)*` tail of the canonical rendering of a parameter
list: each further entry preceded by a comma and one space. -/
def renderBindTail : List Binding → List Char
  | [] => []
  | b :: bs => ',' :: ' ' :: (renderBinding b ++ renderBindTail bs)

theorem length_takeWhile_le' {α : Type} (p : α → Bool) (s : List α) :
    (s.takeWhile p).length ≤ s.length := by
  induction s with
  | nil => simp
  | cons c rest ih =>
    by_cases h : p c
    · simp [List.takeWhile_cons_of_pos h]; omega
    · simp [List.takeWhile_cons_of_neg h]

theorem wsLen_le (s : List Char) : wsLen s ≤ s.length := by
  unfold wsLen
  exact length_takeWhile_le' (fun c => c.isWhitespace) s

theorem wsLen_cons_of_not_ws {c : Char} (s : List Char)
    (h : c.isWhitespace = false) : wsLen (c :: s) = 0 := by
  simp [wsLen, List.takeWhile_cons, h]

/-- Successful identifier parses consume at least one character, and the
remainder together with the new offset describe exactly the unconsumed
suffix of the input. -/
theorem identP_adv {s : List Char} {pos : Nat} {a : String} {r : List Char}
    {p' : Nat} (h : identP s pos = .ok (a, r, p')) :
    ∃ k, 1 ≤ k ∧ k ≤ s.length ∧ r = s.drop k ∧ p' = pos + k := by
  match s with
  | [] => simp [identP] at h
  | c :: rest =>
    by_cases hc : c.isAlpha
    · simp only [identP, hc, if_pos] at h
      obtain ⟨-, hr, hp⟩ := h
      refine ⟨1 + (rest.takeWhile isIdentChar).length, by omega, ?_, ?_, by omega⟩
      · have := length_takeWhile_le' isIdentChar rest
        simp only [List.length_cons]
        omega
      · rw [Nat.add_comm 1 (rest.takeWhile isIdentChar).length,
          List.drop_succ_cons]
    · simp [identP, hc] at h

/-- Successful type parses consume at least one character, and the
remainder together with the new offset describe exactly the unconsumed
suffix of the input. -/
theorem tyP_adv {s : List Char} {pos : Nat} {t : Ty} {r : List Char}
    {p' : Nat} (h : tyP s pos = .ok (t, r, p')) :
    ∃ k, 1 ≤ k ∧ k ≤ s.length ∧ r = s.drop k ∧ p' = pos + k := by
  induction s, pos using tyP.induct generalizing t r p' with
  | case1 rest pos =>
    simp only [tyP, Except.ok.injEq, Prod.mk.injEq] at h
    obtain ⟨-, hr, hp⟩ := h
    refine ⟨3, by omega, by simp, by simp [hr.symm], by omega⟩
  | case2 rest pos t1 pos2 rest3 hrec ih =>
    simp only [tyP, hrec, Except.ok.injEq, Prod.mk.injEq] at h
    obtain ⟨-, hr, hp⟩ := h
    obtain ⟨k1, hk1, hk1le, hre, hpe⟩ := ih hrec
    have hlen : rest.length - k1 = rest3.length + 1 := by
      have := congrArg List.length hre
      simp at this
      omega
    refine ⟨k1 + 2, by omega, by simp; omega, ?_, by omega⟩
    have hr3 : rest3 = rest.drop (k1 + 1) := by
      have : (']' :: rest3).drop 1 = (rest.drop k1).drop 1 := by rw [← hre]
      simpa [List.drop_drop] using this
    simp only [List.drop_succ_cons]
    rw [← hr, hr3]
  | case3 rest pos t1 rest2 pos2 hrec hne ih =>
    simp only [tyP, hrec] at h
    exact Except.noConfusion h
  | case4 rest pos e hrec ih =>
    simp [tyP, hrec] at h
  | case5 s0 pos h1 h2 =>
    rw [tyP.eq_def] at h
    split at h
    · exact absurd rfl (by intro hq; exact h1 _ (by assumption))
    · exact absurd rfl (by intro hq; exact h2 _ (by assumption))
    · simp at h

/-- Splitting a drop at a cons cell: the head is at index `k` and the tail
starts at index `k + 1`. -/
theorem drop_eq_cons_split {s r : List Char} {c : Char} {k : Nat}
    (h : s.drop k = c :: r) : k < s.length ∧ r = s.drop (k + 1) := by
  constructor
  · have := congrArg List.length h
    simp at this
    omega
  · have : (s.drop k).drop 1 = (c :: r).drop 1 := by rw [h]
    simpa [List.drop_drop] using this.symm

/-- Ordered choice succeeds only through one of its two alternatives. -/
theorem porElse_ok {α : Type} {p q : List Char → Nat → PRes α}
    {s : List Char} {pos : Nat} {r : α × List Char × Nat}
    (h : porElse p q s pos = .ok r) :
    p s pos = .ok r ∨ q s pos = .ok r := by
  unfold porElse at h
  cases hp : p s pos with
  | ok r1 =>
    rw [hp] at h
    simp at h
    subst h
    exact Or.inl rfl
  | error e1 =>
    rw [hp] at h
    cases hq : q s pos with
    | ok r2 =>
      rw [hq] at h
      simp at h
      subst h
      exact Or.inr rfl
    | error e2 => rw [hq] at h; simp at h

/-- Successful right-hand-side parses consume at least one character. -/
theorem rhsP_adv {s : List Char} {pos : Nat} {a : BindingRhs} {r : List Char}
    {p' : Nat} (h : rhsP s pos = .ok (a, r, p')) :
    ∃ k, 1 ≤ k ∧ k ≤ s.length ∧ r = s.drop k ∧ p' = pos + k := by
  rcases porElse_ok h with h1 | h1
  · unfold tyRhsP at h1
    cases ht : tyP s pos with
    | ok v =>
      obtain ⟨t0, r0, q0⟩ := v
      rw [ht] at h1
      simp at h1
      obtain ⟨-, hr, hp⟩ := h1
      exact tyP_adv (by rw [ht, hr, hp])
    | error e => rw [ht] at h1; simp at h1
  · unfold identRhsP at h1
    cases ht : identP s pos with
    | ok v =>
      obtain ⟨n0, r0, q0⟩ := v
      rw [ht] at h1
      simp at h1
      obtain ⟨-, hr, hp⟩ := h1
      exact identP_adv (by rw [ht, hr, hp])
    | error e => rw [ht] at h1; simp at h1

/-- Successful binding parses consume at least one character, and the
remainder together with the new offset describe exactly the unconsumed
suffix of the input. -/
theorem bindingP_adv {s : List Char} {pos : Nat} {b : Binding}
    {r : List Char} {p' : Nat} (h : bindingP s pos = .ok (b, r, p')) :
    ∃ k, 1 ≤ k ∧ k ≤ s.length ∧ r = s.drop k ∧ p' = pos + k := by
  unfold bindingP at h
  cases hid : identP s pos with
  | error e => rw [hid] at h; simp at h
  | ok v =>
    obtain ⟨name, s1, p1⟩ := v
    rw [hid] at h
    dsimp only at h
    obtain ⟨k0, hk01, hk0le, hs1, hp1⟩ := identP_adv hid
    have hw1 : wsLen s1 ≤ s1.length := wsLen_le s1
    have hlen1 : s1.length = s.length - k0 := by
      have := congrArg List.length hs1
      simp at this
      omega
    rcases hd : s1.drop (wsLen s1) with _ | ⟨c, s3⟩
    · rw [hd] at h
      simp at h
      obtain ⟨-, hr, hp⟩ := h
      refine ⟨k0 + wsLen s1, by omega, by omega, ?_, by omega⟩
      rw [hr, ← hd, hs1, List.drop_drop]
    · rw [hd] at h
      dsimp only at h
      by_cases hc : c = ':'
      · rw [if_pos hc] at h
        cases hrhs : rhsP (s3.drop (wsLen s3))
            (p1 + wsLen s1 + 1 + wsLen s3) with
        | error e => rw [hrhs] at h; simp at h
        | ok v2 =>
          obtain ⟨rhs, s5, p5⟩ := v2
          rw [hrhs] at h
          simp at h
          obtain ⟨-, hr, hp⟩ := h
          obtain ⟨k2, hk21, hk2le, hs5, hp5⟩ := rhsP_adv hrhs
          simp at hk2le
          obtain ⟨hwlt, hs3⟩ := drop_eq_cons_split hd
          have hlen3 : s3.length = s1.length - (wsLen s1 + 1) := by
            have := congrArg List.length hs3
            simp at this
            omega
          have hw3 : wsLen s3 ≤ s3.length := wsLen_le s3
          refine ⟨k0 + wsLen s1 + 1 + wsLen s3 + k2, by omega, by omega, ?_,
            by omega⟩
          rw [← hr, hs5, hs3, hs1]
          simp only [List.drop_drop]
          congr 1
      · rw [if_neg hc] at h
        simp at h
        obtain ⟨-, hr, hp⟩ := h
        refine ⟨k0 + wsLen s1, by omega, by omega, ?_, by omega⟩
        rw [← hr, ← hd, hs1, List.drop_drop]

/-- Composition of the prefixes consumed by a comma and the binding that
follows it inside a parameter list. -/
theorem comma_binding_comp {s s2 s4 : List Char} {pos p4 : Nat} {b : Binding}
    {c : Char} (hd : s.drop (wsLen s) = c :: s2)
    (hb : bindingP (s2.drop (wsLen s2)) (pos + wsLen s + 1 + wsLen s2) =
      .ok (b, s4, p4)) :
    ∃ k, 1 ≤ k ∧ k ≤ s.length ∧ s4 = s.drop k ∧ p4 = pos + k := by
  obtain ⟨kb, hkb1, hkble, hs4, hp4⟩ := bindingP_adv hb
  obtain ⟨hlt, hs2⟩ := drop_eq_cons_split hd
  have hw2 := wsLen_le s2
  have hl2 : s2.length = s.length - (wsLen s + 1) := by
    have := congrArg List.length hs2
    simp at this
    omega
  simp only [List.length_drop] at hkble
  refine ⟨wsLen s + 1 + wsLen s2 + kb, by omega, by omega, ?_, by omega⟩
  rw [hs4, hs2]
  simp only [List.drop_drop]

/-- The binding-list loop only consumes input: its remainder and offset
describe exactly the unconsumed suffix of the input. -/
theorem bindingsLoop_adv {n : Nat} {s : List Char} {pos : Nat}
    {acc bs : List Binding} {r : List Char} {p' : Nat}
    (h : bindingsLoop n s pos acc = .ok (bs, r, p')) :
    ∃ k, k ≤ s.length ∧ r = s.drop k ∧ p' = pos + k := by
  induction n generalizing s pos acc bs r p' with
  | zero =>
    rw [bindingsLoop] at h
    rcases hd : s.drop (wsLen s) with _ | ⟨c, s2⟩
    · rw [hd] at h
      simp at h
      obtain ⟨-, hr, hp⟩ := h
      exact ⟨0, by omega, by rw [← hr, List.drop_zero], by omega⟩
    · rw [hd] at h
      dsimp only at h
      by_cases hc : c = ','
      · rw [if_pos hc] at h
        cases hb : bindingP (s2.drop (wsLen s2))
            (pos + wsLen s + 1 + wsLen s2) with
        | error e => rw [hb] at h; simp at h
        | ok v =>
          obtain ⟨b, s4, p4⟩ := v
          rw [hb] at h
          simp at h
          obtain ⟨-, hr, hp⟩ := h
          obtain ⟨k, hk1, hkle, hs4, hp4⟩ := comma_binding_comp hd hb
          exact ⟨k, by omega, by rw [← hr, hs4], by omega⟩
      · rw [if_neg hc] at h
        simp at h
        obtain ⟨-, hr, hp⟩ := h
        exact ⟨0, by omega, by rw [← hr, List.drop_zero], by omega⟩
  | succ m ih =>
    rw [bindingsLoop] at h
    rcases hd : s.drop (wsLen s) with _ | ⟨c, s2⟩
    · rw [hd] at h
      simp at h
      obtain ⟨-, hr, hp⟩ := h
      exact ⟨0, by omega, by rw [← hr, List.drop_zero], by omega⟩
    · rw [hd] at h
      dsimp only at h
      by_cases hc : c = ','
      · rw [if_pos hc] at h
        cases hb : bindingP (s2.drop (wsLen s2))
            (pos + wsLen s + 1 + wsLen s2) with
        | error e => rw [hb] at h; simp at h
        | ok v =>
          obtain ⟨b, s4, p4⟩ := v
          rw [hb] at h
          dsimp only at h
          obtain ⟨k5, hk5le, hr5, hp5⟩ := ih h
          obtain ⟨k, hk1, hkle, hs4, hp4⟩ := comma_binding_comp hd hb
          have h4 := congrArg List.length hs4
          simp at h4
          refine ⟨k + k5, by omega, ?_, by omega⟩
          rw [hr5, hs4, List.drop_drop]
      · rw [if_neg hc] at h
        simp at h
        obtain ⟨-, hr, hp⟩ := h
        exact ⟨0, by omega, by rw [← hr, List.drop_zero], by omega⟩

/-- Successful parameter-list parses consume at least one character, and
the remainder together with the new offset describe exactly the
unconsumed suffix of the input. -/
theorem paramsP_adv {s : List Char} {pos : Nat} {bs : List Binding}
    {r : List Char} {p' : Nat} (h : paramsP s pos = .ok (bs, r, p')) :
    ∃ k, 1 ≤ k ∧ k ≤ s.length ∧ r = s.drop k ∧ p' = pos + k := by
  match s with
  | [] => simp [paramsP] at h
  | c :: s1 =>
    by_cases hc : c = '('
    · rw [paramsP] at h
      rw [if_pos hc] at h
      have hw1 := wsLen_le s1
      rcases hd : s1.drop (wsLen s1) with _ | ⟨d, s2⟩
      · rw [hd] at h
        simp at h
      · rw [hd] at h
        dsimp only at h
        obtain ⟨hwlt1, hs2⟩ := drop_eq_cons_split hd
        have hlen2 : s2.length = s1.length - (wsLen s1 + 1) := by
          have := congrArg List.length hs2
          simp at this
          omega
        by_cases hdp : d = ')'
        · rw [if_pos hdp] at h
          simp at h
          obtain ⟨-, hr, hp⟩ := h
          refine ⟨wsLen s1 + 1 + 1, by omega, by simp; omega, ?_, by omega⟩
          rw [← hr, hs2, List.drop_succ_cons]
        · rw [if_neg hdp] at h
          cases hb : bindingP (d :: s2) (pos + 1 + wsLen s1) with
          | error e => rw [hb] at h; simp at h
          | ok v =>
            obtain ⟨b, s3, p3⟩ := v
            rw [hb] at h
            dsimp only at h
            obtain ⟨k3, hk31, hk3le, hs3, hp3⟩ := bindingP_adv hb
            rw [← hd] at hs3
            simp only [List.length_cons] at hk3le
            cases hl : bindingsLoop s3.length s3 p3 [b] with
            | error e => rw [hl] at h; simp at h
            | ok v2 =>
              obtain ⟨bs4, s4, p4⟩ := v2
              rw [hl] at h
              dsimp only at h
              obtain ⟨k4, hk4le, hs4, hp4⟩ := bindingsLoop_adv hl
              have hlen3 : s3.length = s1.length - wsLen s1 - k3 := by
                have := congrArg List.length hs3
                simp at this
                omega
              have hk3le' : wsLen s1 + k3 ≤ s1.length := by omega
              have hlen4 : s4.length = s3.length - k4 := by
                have := congrArg List.length hs4
                simp at this
                omega
              have hw4 := wsLen_le s4
              rcases he : s4.drop (wsLen s4) with _ | ⟨e, s5⟩
              · rw [he] at h
                simp at h
              · rw [he] at h
                dsimp only at h
                by_cases hep : e = ')'
                · rw [if_pos hep] at h
                  simp at h
                  obtain ⟨-, hr, hp⟩ := h
                  obtain ⟨hwlt4, hs5⟩ := drop_eq_cons_split he
                  refine ⟨1 + wsLen s1 + k3 + k4 + wsLen s4 + 1, by omega,
                    by simp; omega, ?_, by omega⟩
                  rw [← hr, hs5, hs4, hs3, List.drop_succ_cons]
                  simp only [List.drop_drop]
                  congr 1
                  omega
                · rw [if_neg hep] at h
                  simp at h
    · rw [paramsP] at h
      rw [if_neg hc] at h
      simp at h

/-- The balanced-brace machine consumes at least one character on
success, and the remainder together with the new offset describe exactly
the unconsumed suffix of the input. -/
theorem blockSteps_adv {n : Nat} {s : List Char} {pos : Nat}
    {acc bs : List BlockItem} {stack : List (List BlockItem)}
    {r : List Char} {p' : Nat}
    (h : blockSteps n s pos acc stack = .ok (bs, r, p')) :
    ∃ k, 1 ≤ k ∧ k ≤ s.length ∧ r = s.drop k ∧ p' = pos + k := by
  induction n generalizing s pos acc stack bs r p' with
  | zero =>
    rcases s with _ | ⟨c, rest⟩
    · rw [blockSteps.eq_def] at h
      simp at h
    · rw [blockSteps.eq_def] at h
      simp at h
  | succ m ih =>
    rcases s with _ | ⟨c, rest⟩
    · rw [blockSteps.eq_def] at h
      simp at h
    · rw [blockSteps.eq_def] at h
      dsimp only at h
      by_cases h1 : c = '}'
      · rw [if_pos h1] at h
        rcases stack with _ | ⟨top, stk⟩
        · simp at h
          obtain ⟨-, hr, hp⟩ := h
          refine ⟨1, by omega, by simp, ?_, by omega⟩
          rw [← hr, List.drop_succ_cons, List.drop_zero]
        · dsimp only at h
          obtain ⟨k, hk1, hkle, hr, hp⟩ := ih h
          refine ⟨k + 1, by omega, by simp; omega, ?_, by omega⟩
          rw [hr, List.drop_succ_cons]
      · rw [if_neg h1] at h
        by_cases h2 : c = '{'
        · rw [if_pos h2] at h
          obtain ⟨k, hk1, hkle, hr, hp⟩ := ih h
          refine ⟨k + 1, by omega, by simp; omega, ?_, by omega⟩
          rw [hr, List.drop_succ_cons]
        · rw [if_neg h2] at h
          by_cases h3 : c.isWhitespace
          · rw [if_pos h3] at h
            obtain ⟨k, hk1, hkle, hr, hp⟩ := ih h
            have hw := length_takeWhile_le' (fun x => x.isWhitespace) rest
            simp at hkle
            refine ⟨(rest.takeWhile (fun x => x.isWhitespace)).length + k + 1,
              by omega, by simp; omega, ?_, by omega⟩
            rw [hr, List.drop_drop, List.drop_succ_cons]
          · rw [if_neg h3] at h
            by_cases h4 : c.isDigit
            · rw [if_pos h4] at h
              obtain ⟨k, hk1, hkle, hr, hp⟩ := ih h
              have hw := length_takeWhile_le' (fun x => x.isDigit) rest
              simp at hkle
              refine ⟨(rest.takeWhile (fun x => x.isDigit)).length + k + 1,
                by omega, by simp; omega, ?_, by omega⟩
              rw [hr, List.drop_drop, List.drop_succ_cons]
            · rw [if_neg h4] at h
              obtain ⟨k, hk1, hkle, hr, hp⟩ := ih h
              have hw := length_takeWhile_le' isChunkChar rest
              simp at hkle
              refine ⟨(rest.takeWhile isChunkChar).length + k + 1,
                by omega, by simp; omega, ?_, by omega⟩
              rw [hr, List.drop_drop, List.drop_succ_cons]

/-- Successful block parses consume at least one character, and the
remainder together with the new offset describe exactly the unconsumed
suffix of the input. -/
theorem blockP_adv {s : List Char} {pos : Nat} {bs : List BlockItem}
    {r : List Char} {p' : Nat} (h : blockP s pos = .ok (bs, r, p')) :
    ∃ k, 1 ≤ k ∧ k ≤ s.length ∧ r = s.drop k ∧ p' = pos + k := by
  match s with
  | [] => simp [blockP] at h
  | c :: s1 =>
    by_cases hc : c = '{'
    · rw [blockP] at h
      rw [if_pos hc] at h
      obtain ⟨k, hk1, hkle, hr, hp⟩ := blockSteps_adv h
      refine ⟨k + 1, by omega, by simp; omega, ?_, by omega⟩
      rw [hr, List.drop_succ_cons]
    · rw [blockP] at h
      rw [if_neg hc] at h
      simp at h

/-- Composition of the prefixes consumed by leading whitespace and a
block parsed after it. -/
theorem ws_block_comp {s s2 : List Char} {pos p2 : Nat} {b : List BlockItem}
    (hb : blockP (s.drop (wsLen s)) (pos + wsLen s) = .ok (b, s2, p2)) :
    ∃ k, 1 ≤ k ∧ k ≤ s.length ∧ s2 = s.drop k ∧ p2 = pos + k := by
  obtain ⟨k, hk1, hkle, hs2, hp2⟩ := blockP_adv hb
  have hw := wsLen_le s
  simp only [List.length_drop] at hkle
  refine ⟨wsLen s + k, by omega, by omega, ?_, by omega⟩
  rw [hs2, List.drop_drop]

/-- The block-list loop only consumes input: its remainder and offset
describe exactly the unconsumed suffix of the input. -/
theorem blocksLoop_adv {n : Nat} {s : List Char} {pos : Nat}
    {acc bs : List (List BlockItem)} {r : List Char} {p' : Nat}
    (h : blocksLoop n s pos acc = .ok (bs, r, p')) :
    ∃ k, k ≤ s.length ∧ r = s.drop k ∧ p' = pos + k := by
  induction n generalizing s pos acc bs r p' with
  | zero =>
    rw [blocksLoop] at h
    cases hb : blockP (s.drop (wsLen s)) (pos + wsLen s) with
    | error e =>
      rw [hb] at h
      simp at h
      obtain ⟨-, hr, hp⟩ := h
      exact ⟨0, by omega, by rw [← hr, List.drop_zero], by omega⟩
    | ok v =>
      obtain ⟨b, s2, p2⟩ := v
      rw [hb] at h
      simp at h
      obtain ⟨-, hr, hp⟩ := h
      obtain ⟨k, hk1, hkle, hs2, hp2⟩ := ws_block_comp hb
      exact ⟨k, by omega, by rw [← hr, hs2], by omega⟩
  | succ m ih =>
    rw [blocksLoop] at h
    cases hb : blockP (s.drop (wsLen s)) (pos + wsLen s) with
    | error e =>
      rw [hb] at h
      simp at h
      obtain ⟨-, hr, hp⟩ := h
      exact ⟨0, by omega, by rw [← hr, List.drop_zero], by omega⟩
    | ok v =>
      obtain ⟨b, s2, p2⟩ := v
      rw [hb] at h
      dsimp only at h
      obtain ⟨k5, hk5le, hr5, hp5⟩ := ih h
      obtain ⟨k, hk1, hkle, hs2, hp2⟩ := ws_block_comp hb
      have h3 := congrArg List.length hs2
      simp at h3
      refine ⟨k + k5, by omega, ?_, by omega⟩
      rw [hr5, hs2, List.drop_drop]

/-- Successful declaration parses consume at least one character, and the
remainder together with the new offset describe exactly the unconsumed
suffix of the input. -/
theorem declP_adv {s : List Char} {pos : Nat} {d : Decl}
    {r : List Char} {p' : Nat} (h : declP s pos = .ok (d, r, p')) :
    ∃ k, 1 ≤ k ∧ k ≤ s.length ∧ r = s.drop k ∧ p' = pos + k := by
  unfold declP at h
  cases hid : identP s pos with
  | error e => rw [hid] at h; simp at h
  | ok v =>
    obtain ⟨name, s1, p1⟩ := v
    rw [hid] at h
    dsimp only at h
    obtain ⟨k1, hk11, hk1le, hs1, hp1⟩ := identP_adv hid
    have hw1 := wsLen_le s1
    have hlen1 : s1.length = s.length - k1 := by
      have := congrArg List.length hs1
      simp at this
      omega
    cases hps : paramsP (s1.drop (wsLen s1)) (p1 + wsLen s1) with
    | error e => rw [hps] at h; simp at h
    | ok v2 =>
      obtain ⟨ps, s2, p2⟩ := v2
      rw [hps] at h
      dsimp only at h
      obtain ⟨k2, hk21, hk2le, hs2, hp2⟩ := paramsP_adv hps
      simp only [List.length_drop] at hk2le
      have hlen2 : s2.length = s1.length - wsLen s1 - k2 := by
        have := congrArg List.length hs2
        simp at this
        omega
      have hw2 := wsLen_le s2
      rcases hd3 : s2.drop (wsLen s2) with _ | ⟨c, s3x⟩
      · rw [hd3] at h
        simp at h
      · rcases s3x with _ | ⟨dch, s3⟩
        · rw [hd3] at h
          dsimp only at h
          simp at h
        · rw [hd3] at h
          dsimp only at h
          by_cases harr : c = '-' ∧ dch = '>'
          · rw [if_pos harr] at h
            obtain ⟨hq1, hq2⟩ := drop_eq_cons_split hd3
            obtain ⟨hq3, hs3⟩ := drop_eq_cons_split hq2.symm
            have hlen3 : s3.length = s2.length - (wsLen s2 + 1 + 1) := by
              have := congrArg List.length hs3
              simp at this
              omega
            have hw3 := wsLen_le s3
            cases hrs : paramsP (s3.drop (wsLen s3))
                (p2 + wsLen s2 + 2 + wsLen s3) with
            | error e => rw [hrs] at h; simp at h
            | ok v3 =>
              obtain ⟨rs, s4, p4⟩ := v3
              rw [hrs] at h
              dsimp only at h
              obtain ⟨kr, hkr1, hkrle, hs4, hp4⟩ := paramsP_adv hrs
              simp only [List.length_drop] at hkrle
              have hlen4 : s4.length = s3.length - wsLen s3 - kr := by
                have := congrArg List.length hs4
                simp at this
                omega
              have hw4 := wsLen_le s4
              cases hbk : blockP (s4.drop (wsLen s4)) (p4 + wsLen s4) with
              | error e => rw [hbk] at h; simp at h
              | ok v4 =>
                obtain ⟨b1, s5, p5⟩ := v4
                rw [hbk] at h
                dsimp only at h
                obtain ⟨kb, hkb1, hkble, hs5, hp5⟩ := blockP_adv hbk
                simp only [List.length_drop] at hkble
                have hlen5 : s5.length = s4.length - wsLen s4 - kb := by
                  have := congrArg List.length hs5
                  simp at this
                  omega
                cases hbl : blocksLoop s5.length s5 p5 [b1] with
                | error e => rw [hbl] at h; simp at h
                | ok v5 =>
                  obtain ⟨blks, s6, p6⟩ := v5
                  rw [hbl] at h
                  simp at h
                  obtain ⟨-, hr, hp⟩ := h
                  obtain ⟨kl, hklle, hr6, hp6⟩ := blocksLoop_adv hbl
                  refine ⟨k1 + wsLen s1 + k2 + (wsLen s2 + 1 + 1) + wsLen s3 +
                    kr + wsLen s4 + kb + kl, by omega, by omega, ?_, by omega⟩
                  rw [← hr, hr6, hs5, hs4, hs3, hs2, hs1]
                  simp only [List.drop_drop]
          · rw [if_neg harr] at h
            simp at h

/-- Composition of the prefixes consumed by leading whitespace and a
declaration parsed after it. -/
theorem ws_decl_comp {s s2 : List Char} {pos p2 : Nat} {d : Decl}
    (hq : declP (s.drop (wsLen s)) (pos + wsLen s) = .ok (d, s2, p2)) :
    ∃ k, 1 ≤ k ∧ k ≤ s.length ∧ s2 = s.drop k ∧ p2 = pos + k := by
  obtain ⟨k, hk1, hkle, hs2, hp2⟩ := declP_adv hq
  have hw := wsLen_le s
  simp only [List.length_drop] at hkle
  refine ⟨wsLen s + k, by omega, by omega, ?_, by omega⟩
  rw [hs2, List.drop_drop]

/-- The declaration loop only consumes input: its remainder and offset
describe exactly the unconsumed suffix of the input. -/
theorem declsLoop_adv {n : Nat} {s : List Char} {pos : Nat}
    {acc ds : List Decl} {r : List Char} {p' : Nat}
    (h : declsLoop n s pos acc = .ok (ds, r, p')) :
    ∃ k, k ≤ s.length ∧ r = s.drop k ∧ p' = pos + k := by
  induction n generalizing s pos acc ds r p' with
  | zero =>
    rw [declsLoop] at h
    cases hq : declP (s.drop (wsLen s)) (pos + wsLen s) with
    | error e =>
      rw [hq] at h
      rcases acc with _ | ⟨a, acc2⟩
      · simp at h
      · dsimp only at h
        simp at h
        obtain ⟨-, hr, hp⟩ := h
        exact ⟨0, by omega, by rw [← hr, List.drop_zero], by omega⟩
    | ok v =>
      obtain ⟨d, s2, p2⟩ := v
      rw [hq] at h
      simp at h
      obtain ⟨-, hr, hp⟩ := h
      obtain ⟨k, hk1, hkle, hs2, hp2⟩ := ws_decl_comp hq
      exact ⟨k, by omega, by rw [← hr, hs2], by omega⟩
  | succ m ih =>
    rw [declsLoop] at h
    cases hq : declP (s.drop (wsLen s)) (pos + wsLen s) with
    | error e =>
      rw [hq] at h
      rcases acc with _ | ⟨a, acc2⟩
      · simp at h
      · dsimp only at h
        simp at h
        obtain ⟨-, hr, hp⟩ := h
        exact ⟨0, by omega, by rw [← hr, List.drop_zero], by omega⟩
    | ok v =>
      obtain ⟨d, s2, p2⟩ := v
      rw [hq] at h
      dsimp only at h
      obtain ⟨k5, hk5le, hr5, hp5⟩ := ih h
      obtain ⟨k, hk1, hkle, hs2, hp2⟩ := ws_decl_comp hq
      have h3 := congrArg List.length hs2
      simp at h3
      refine ⟨k + k5, by omega, ?_, by omega⟩
      rw [hr5, hs2, List.drop_drop]

/-- On an input consisting solely of opening braces the program rule
fails immediately: a declaration must begin with an identifier, and an
opening brace is not a letter, so the error is reported at offset `0`
with `identifier` expected, whatever the number of braces. -/
theorem programL_braces {n : Nat} (h : 1 ≤ n) :
    programL (List.replicate n '\x7b') = .error ⟨0, "identifier"⟩ := by
  obtain ⟨m, rfl⟩ : ∃ m, n = m + 1 := ⟨n - 1, by omega⟩
  rw [List.replicate_succ]
  rfl

/-- A failing identifier parse reports exactly the offset it was started
at, expecting an identifier. -/
theorem identP_err {s : List Char} {pos : Nat} {e : ParseError}
    (h : identP s pos = .error e) : e = ⟨pos, "identifier"⟩ := by
  match s with
  | [] =>
    simp [identP] at h
    exact h.symm
  | c :: rest =>
    by_cases hc : c.isAlpha
    · simp [identP, hc] at h
    · simp [identP, hc] at h
      exact h.symm

/-- A failing type parse reports an offset inside the input it was run
on. -/
theorem tyP_err {s : List Char} {pos : Nat} {e : ParseError}
    (h : tyP s pos = .error e) : pos ≤ e.offset ∧ e.offset ≤ pos + s.length := by
  induction s, pos using tyP.induct generalizing e with
  | case1 rest pos => simp [tyP] at h
  | case2 rest pos t1 pos2 rest3 hrec ih =>
    simp only [tyP, hrec] at h
    exact Except.noConfusion h
  | case3 rest pos t1 rest2 pos2 hrec hne ih =>
    simp only [tyP, hrec] at h
    injection h with h2
    subst h2
    obtain ⟨k1, hk11, hk1le, hre, hpe⟩ := tyP_adv hrec
    refine ⟨by simp; omega, by simp; omega⟩
  | case4 rest pos e1 hrec ih =>
    simp only [tyP, hrec] at h
    injection h with h2
    subst h2
    obtain ⟨hl, hu⟩ := ih hrec
    refine ⟨by omega, by simp; omega⟩
  | case5 s0 pos h1 h2 =>
    rw [tyP.eq_def] at h
    split at h
    · exact absurd rfl (by intro hq; exact h1 _ (by assumption))
    · exact absurd rfl (by intro hq; exact h2 _ (by assumption))
    · injection h with h2
      subst h2
      refine ⟨by simp, by simp⟩

/-- When both alternatives of an ordered choice fail, the reported error
is the one from the alternative whose error is positioned further into
the input, i.e. the alternative that consumed the most input before
failing. -/
theorem porElse_err {α : Type} {p q : List Char → Nat → PRes α}
    {s : List Char} {pos : Nat} {e1 e2 : ParseError}
    (hp : p s pos = .error e1) (hq : q s pos = .error e2) :
    porElse p q s pos = .error (if e1.offset < e2.offset then e2 else e1) := by
  unfold porElse
  rw [hp, hq]

/-- A failing right-hand-side parse reports an offset inside the input
it was run on. -/
theorem rhsP_err {s : List Char} {pos : Nat} {e : ParseError}
    (h : rhsP s pos = .error e) : e.offset ≤ pos + s.length := by
  unfold rhsP porElse at h
  cases ht : tyRhsP s pos with
  | ok v => rw [ht] at h; simp at h
  | error e1 =>
    rw [ht] at h
    cases hi : identRhsP s pos with
    | ok v => rw [hi] at h; simp at h
    | error e2 =>
      rw [hi] at h
      simp at h
      have hb1 : e1.offset ≤ pos + s.length := by
        unfold tyRhsP at ht
        cases ht2 : tyP s pos with
        | ok v => rw [ht2] at ht; simp at ht
        | error e3 =>
          rw [ht2] at ht
          simp at ht
          obtain ⟨-, hb⟩ := tyP_err ht2
          rw [← ht]
          exact hb
      have hb2 : e2.offset ≤ pos + s.length := by
        unfold identRhsP at hi
        cases hi2 : identP s pos with
        | ok v => rw [hi2] at hi; simp at hi
        | error e3 =>
          rw [hi2] at hi
          simp at hi
          rw [← hi, identP_err hi2]
          simp
      rw [← h]
      by_cases hlt : e1.offset < e2.offset
      · rw [if_pos hlt]; exact hb2
      · rw [if_neg hlt]; exact hb1

/-- A failing binding parse reports an offset inside the input it was
run on. -/
theorem bindingP_err {s : List Char} {pos : Nat} {e : ParseError}
    (h : bindingP s pos = .error e) : e.offset ≤ pos + s.length := by
  unfold bindingP at h
  cases hid : identP s pos with
  | error e1 =>
    rw [hid] at h
    simp at h
    rw [← h, identP_err hid]
    simp
  | ok v =>
    obtain ⟨name, s1, p1⟩ := v
    rw [hid] at h
    dsimp only at h
    obtain ⟨k0, hk01, hk0le, hs1, hp1⟩ := identP_adv hid
    have hw1 := wsLen_le s1
    have hlen1 : s1.length = s.length - k0 := by
      have := congrArg List.length hs1
      simp at this
      omega
    rcases hd : s1.drop (wsLen s1) with _ | ⟨c, s3⟩
    · rw [hd] at h
      simp at h
    · rw [hd] at h
      dsimp only at h
      by_cases hc : c = ':'
      · rw [if_pos hc] at h
        cases hrhs : rhsP (s3.drop (wsLen s3))
            (p1 + wsLen s1 + 1 + wsLen s3) with
        | ok v2 => rw [hrhs] at h; obtain ⟨a2, b2, c2⟩ := v2; simp at h
        | error e2 =>
          rw [hrhs] at h
          simp at h
          subst h
          have hb := rhsP_err hrhs
          obtain ⟨hwlt, hs3⟩ := drop_eq_cons_split hd
          have hlen3 : s3.length = s1.length - (wsLen s1 + 1) := by
            have := congrArg List.length hs3
            simp at this
            omega
          have hw3 := wsLen_le s3
          simp only [List.length_drop] at hb
          omega
      · rw [if_neg hc] at h
        simp at h

/-- A failing binding-list loop reports an offset inside the input it
was run on. -/
theorem bindingsLoop_err {n : Nat} {s : List Char} {pos : Nat}
    {acc : List Binding} {e : ParseError}
    (h : bindingsLoop n s pos acc = .error e) : e.offset ≤ pos + s.length := by
  induction n generalizing s pos acc e with
  | zero =>
    rw [bindingsLoop] at h
    rcases hd : s.drop (wsLen s) with _ | ⟨c, s2⟩
    · rw [hd] at h
      simp at h
    · rw [hd] at h
      dsimp only at h
      by_cases hc : c = ','
      · rw [if_pos hc] at h
        cases hb : bindingP (s2.drop (wsLen s2))
            (pos + wsLen s + 1 + wsLen s2) with
        | ok v => obtain ⟨b, s4, p4⟩ := v; rw [hb] at h; simp at h
        | error e2 =>
          rw [hb] at h
          simp at h
          subst h
          have hbb := bindingP_err hb
          obtain ⟨hwlt, hs2⟩ := drop_eq_cons_split hd
          have hl2 : s2.length = s.length - (wsLen s + 1) := by
            have := congrArg List.length hs2
            simp at this
            omega
          have hw2 := wsLen_le s2
          simp only [List.length_drop] at hbb
          omega
      · rw [if_neg hc] at h
        simp at h
  | succ m ih =>
    rw [bindingsLoop] at h
    rcases hd : s.drop (wsLen s) with _ | ⟨c, s2⟩
    · rw [hd] at h
      simp at h
    · rw [hd] at h
      dsimp only at h
      by_cases hc : c = ','
      · rw [if_pos hc] at h
        cases hb : bindingP (s2.drop (wsLen s2))
            (pos + wsLen s + 1 + wsLen s2) with
        | ok v =>
          obtain ⟨b, s4, p4⟩ := v
          rw [hb] at h
          dsimp only at h
          have hbb := ih h
          obtain ⟨k, hk1, hkle, hs4, hp4⟩ := comma_binding_comp hd hb
          have h4 := congrArg List.length hs4
          simp at h4
          omega
        | error e2 =>
          rw [hb] at h
          simp at h
          subst h
          have hbb := bindingP_err hb
          obtain ⟨hwlt, hs2⟩ := drop_eq_cons_split hd
          have hl2 : s2.length = s.length - (wsLen s + 1) := by
            have := congrArg List.length hs2
            simp at this
            omega
          have hw2 := wsLen_le s2
          simp only [List.length_drop] at hbb
          omega
      · rw [if_neg hc] at h
        simp at h

/-- A failing parameter-list parse reports an offset inside the input it
was run on. -/
theorem paramsP_err {s : List Char} {pos : Nat} {e : ParseError}
    (h : paramsP s pos = .error e) : e.offset ≤ pos + s.length := by
  match s with
  | [] =>
    simp [paramsP] at h
    subst h
    simp
  | c :: s1 =>
    by_cases hc : c = '('
    · rw [paramsP] at h
      rw [if_pos hc] at h
      have hw1 := wsLen_le s1
      rcases hd : s1.drop (wsLen s1) with _ | ⟨d, s2⟩
      · rw [hd] at h
        simp at h
        subst h
        simp
        omega
      · rw [hd] at h
        dsimp only at h
        obtain ⟨hwlt1, hs2⟩ := drop_eq_cons_split hd
        have hlen2 : s2.length = s1.length - (wsLen s1 + 1) := by
          have := congrArg List.length hs2
          simp at this
          omega
        by_cases hdp : d = ')'
        · rw [if_pos hdp] at h
          simp at h
        · rw [if_neg hdp] at h
          cases hb : bindingP (d :: s2) (pos + 1 + wsLen s1) with
          | error e2 =>
            rw [hb] at h
            simp at h
            subst h
            have hbb := bindingP_err hb
            simp only [List.length_cons] at hbb
            simp
            omega
          | ok v =>
            obtain ⟨b, s3, p3⟩ := v
            rw [hb] at h
            dsimp only at h
            obtain ⟨k3, hk31, hk3le, hs3, hp3⟩ := bindingP_adv hb
            rw [← hd] at hs3
            simp only [List.length_cons] at hk3le
            have hlen3 : s3.length = s1.length - wsLen s1 - k3 := by
              have := congrArg List.length hs3
              simp at this
              omega
            cases hl : bindingsLoop s3.length s3 p3 [b] with
            | error e2 =>
              rw [hl] at h
              simp at h
              subst h
              have hbb := bindingsLoop_err hl
              simp
              omega
            | ok v2 =>
              obtain ⟨bs4, s4, p4⟩ := v2
              rw [hl] at h
              dsimp only at h
              obtain ⟨k4, hk4le, hs4, hp4⟩ := bindingsLoop_adv hl
              have hlen4 : s4.length = s3.length - k4 := by
                have := congrArg List.length hs4
                simp at this
                omega
              have hw4 := wsLen_le s4
              rcases he : s4.drop (wsLen s4) with _ | ⟨ech, s5⟩
              · rw [he] at h
                simp at h
                subst h
                simp
                omega
              · rw [he] at h
                dsimp only at h
                by_cases hep : ech = ')'
                · rw [if_pos hep] at h
                  simp at h
                · rw [if_neg hep] at h
                  simp at h
                  subst h
                  simp
                  omega
    · rw [paramsP] at h
      rw [if_neg hc] at h
      simp at h
      subst h
      simp

/-- A failing balanced-brace machine reports an offset inside the input
it was run on. -/
theorem blockSteps_err {n : Nat} {s : List Char} {pos : Nat}
    {acc : List BlockItem} {stack : List (List BlockItem)} {e : ParseError}
    (h : blockSteps n s pos acc stack = .error e) :
    pos ≤ e.offset ∧ e.offset ≤ pos + s.length := by
  induction n generalizing s pos acc stack e with
  | zero =>
    rcases s with _ | ⟨c, rest⟩
    · rw [blockSteps.eq_def] at h
      dsimp only at h
      injection h with h2
      subst h2
      exact ⟨le_refl pos, by simp⟩
    · rw [blockSteps.eq_def] at h
      dsimp only at h
      injection h with h2
      subst h2
      exact ⟨le_refl pos, by simp⟩
  | succ m ih =>
    rcases s with _ | ⟨c, rest⟩
    · rw [blockSteps.eq_def] at h
      dsimp only at h
      injection h with h2
      subst h2
      exact ⟨le_refl pos, by simp⟩
    · rw [blockSteps.eq_def] at h
      dsimp only at h
      by_cases h1 : c = '\x7d'
      · rw [if_pos h1] at h
        rcases stack with _ | ⟨top, stk⟩
        · simp at h
        · dsimp only at h
          obtain ⟨hl, hu⟩ := ih h
          refine ⟨by omega, by simp; omega⟩
      · rw [if_neg h1] at h
        by_cases h2 : c = '\x7b'
        · rw [if_pos h2] at h
          obtain ⟨hl, hu⟩ := ih h
          refine ⟨by omega, by simp; omega⟩
        · rw [if_neg h2] at h
          by_cases h3 : c.isWhitespace
          · rw [if_pos h3] at h
            obtain ⟨hl, hu⟩ := ih h
            have hw := length_takeWhile_le' (fun x => x.isWhitespace) rest
            simp only [List.length_drop] at hu
            refine ⟨by omega, by simp; omega⟩
          · rw [if_neg h3] at h
            by_cases h4 : c.isDigit
            · rw [if_pos h4] at h
              obtain ⟨hl, hu⟩ := ih h
              have hw := length_takeWhile_le' (fun x => x.isDigit) rest
              simp only [List.length_drop] at hu
              refine ⟨by omega, by simp; omega⟩
            · rw [if_neg h4] at h
              obtain ⟨hl, hu⟩ := ih h
              have hw := length_takeWhile_le' isChunkChar rest
              simp only [List.length_drop] at hu
              refine ⟨by omega, by simp; omega⟩

/-- A failing block parse reports an offset inside the input it was run
on. -/
theorem blockP_err {s : List Char} {pos : Nat} {e : ParseError}
    (h : blockP s pos = .error e) : e.offset ≤ pos + s.length := by
  match s with
  | [] =>
    simp [blockP] at h
    subst h
    simp
  | c :: s1 =>
    by_cases hc : c = '\x7b'
    · rw [blockP] at h
      rw [if_pos hc] at h
      obtain ⟨-, hu⟩ := blockSteps_err h
      simp only [List.length_cons]
      omega
    · rw [blockP] at h
      rw [if_neg hc] at h
      simp at h
      subst h
      simp

/-- The block-list loop never fails: a block that does not parse simply
stops the loop. -/
theorem blocksLoop_no_err {n : Nat} {s : List Char} {pos : Nat}
    {acc : List (List BlockItem)} {e : ParseError}
    (h : blocksLoop n s pos acc = .error e) : False := by
  induction n generalizing s pos acc e with
  | zero =>
    rw [blocksLoop] at h
    cases hb : blockP (s.drop (wsLen s)) (pos + wsLen s) with
    | error e2 => rw [hb] at h; simp at h
    | ok v => obtain ⟨b, s2, p2⟩ := v; rw [hb] at h; simp at h
  | succ m ih =>
    rw [blocksLoop] at h
    cases hb : blockP (s.drop (wsLen s)) (pos + wsLen s) with
    | error e2 => rw [hb] at h; simp at h
    | ok v =>
      obtain ⟨b, s2, p2⟩ := v
      rw [hb] at h
      dsimp only at h
      exact ih h

/-- A failing declaration parse reports an offset inside the input it
was run on. -/
theorem declP_err {s : List Char} {pos : Nat} {e : ParseError}
    (h : declP s pos = .error e) : e.offset ≤ pos + s.length := by
  unfold declP at h
  cases hid : identP s pos with
  | error e1 =>
    rw [hid] at h
    simp at h
    rw [← h, identP_err hid]
    simp
  | ok v =>
    obtain ⟨name, s1, p1⟩ := v
    rw [hid] at h
    dsimp only at h
    obtain ⟨k1, hk11, hk1le, hs1, hp1⟩ := identP_adv hid
    have hw1 := wsLen_le s1
    have hlen1 : s1.length = s.length - k1 := by
      have := congrArg List.length hs1
      simp at this
      omega
    cases hps : paramsP (s1.drop (wsLen s1)) (p1 + wsLen s1) with
    | error e1 =>
      rw [hps] at h
      simp at h
      subst h
      have hb := paramsP_err hps
      simp only [List.length_drop] at hb
      omega
    | ok v2 =>
      obtain ⟨ps, s2, p2⟩ := v2
      rw [hps] at h
      dsimp only at h
      obtain ⟨k2, hk21, hk2le, hs2, hp2⟩ := paramsP_adv hps
      simp only [List.length_drop] at hk2le
      have hlen2 : s2.length = s1.length - wsLen s1 - k2 := by
        have := congrArg List.length hs2
        simp at this
        omega
      have hw2 := wsLen_le s2
      rcases hd3 : s2.drop (wsLen s2) with _ | ⟨c, s3x⟩
      · rw [hd3] at h
        simp at h
        subst h
        simp
        omega
      · rcases s3x with _ | ⟨dch, s3⟩
        · rw [hd3] at h
          dsimp only at h
          simp at h
          subst h
          simp
          omega
        · rw [hd3] at h
          dsimp only at h
          by_cases harr : c = '-' ∧ dch = '>'
          · rw [if_pos harr] at h
            obtain ⟨hq1, hq2⟩ := drop_eq_cons_split hd3
            obtain ⟨hq3, hs3⟩ := drop_eq_cons_split hq2.symm
            have hlen3 : s3.length = s2.length - (wsLen s2 + 1 + 1) := by
              have := congrArg List.length hs3
              simp at this
              omega
            have hw3 := wsLen_le s3
            cases hrs : paramsP (s3.drop (wsLen s3))
                (p2 + wsLen s2 + 2 + wsLen s3) with
            | error e1 =>
              rw [hrs] at h
              simp at h
              subst h
              have hb := paramsP_err hrs
              simp only [List.length_drop] at hb
              omega
            | ok v3 =>
              obtain ⟨rs, s4, p4⟩ := v3
              rw [hrs] at h
              dsimp only at h
              obtain ⟨kr, hkr1, hkrle, hs4, hp4⟩ := paramsP_adv hrs
              simp only [List.length_drop] at hkrle
              have hlen4 : s4.length = s3.length - wsLen s3 - kr := by
                have := congrArg List.length hs4
                simp at this
                omega
              have hw4 := wsLen_le s4
              cases hbk : blockP (s4.drop (wsLen s4)) (p4 + wsLen s4) with
              | error e1 =>
                rw [hbk] at h
                simp at h
                subst h
                have hb := blockP_err hbk
                simp only [List.length_drop] at hb
                omega
              | ok v4 =>
                obtain ⟨b1, s5, p5⟩ := v4
                rw [hbk] at h
                dsimp only at h
                cases hbl : blocksLoop s5.length s5 p5 [b1] with
                | error e1 => exact absurd hbl blocksLoop_no_err
                | ok v5 =>
                  obtain ⟨blks, s6, p6⟩ := v5
                  rw [hbl] at h
                  simp at h
          · rw [if_neg harr] at h
            simp at h
            subst h
            simp
            omega

/-- A failing declaration loop reports an offset inside the input it was
run on. -/
theorem declsLoop_err {n : Nat} {s : List Char} {pos : Nat}
    {acc : List Decl} {e : ParseError}
    (h : declsLoop n s pos acc = .error e) : e.offset ≤ pos + s.length := by
  induction n generalizing s pos acc e with
  | zero =>
    rw [declsLoop] at h
    cases hq : declP (s.drop (wsLen s)) (pos + wsLen s) with
    | error e1 =>
      rw [hq] at h
      rcases acc with _ | ⟨a, acc2⟩
      · simp at h
        subst h
        have hb := declP_err hq
        have hw := wsLen_le s
        simp only [List.length_drop] at hb
        omega
      · simp at h
    | ok v =>
      obtain ⟨d, s2, p2⟩ := v
      rw [hq] at h
      simp at h
  | succ m ih =>
    rw [declsLoop] at h
    cases hq : declP (s.drop (wsLen s)) (pos + wsLen s) with
    | error e1 =>
      rw [hq] at h
      rcases acc with _ | ⟨a, acc2⟩
      · simp at h
        subst h
        have hb := declP_err hq
        have hw := wsLen_le s
        simp only [List.length_drop] at hb
        omega
      · simp at h
    | ok v =>
      obtain ⟨d, s2, p2⟩ := v
      rw [hq] at h
      dsimp only at h
      have hb := ih h
      obtain ⟨k, hk1, hkle, hs2, hp2⟩ := ws_decl_comp hq
      have h3 := congrArg List.length hs2
      simp at h3
      omega

/-- A failing program parse reports an offset inside the input. -/
theorem programL_err {s : List Char} {e : ParseError}
    (h : programL s = .error e) : e.offset ≤ s.length := by
  have := declsLoop_err h
  omega

/-- Running the balanced-brace machine over `N + 1` opening braces
followed by `N + 1` closing braces consumes them completely, pushes the
corresponding chain item, and continues in the same enclosing state. -/
theorem blockSteps_nested (N : Nat) :
    ∀ fr pos (acc : List BlockItem) stack rest,
    blockSteps (2 * (N + 1) + fr)
      (List.replicate (N + 1) '\x7b' ++ List.replicate (N + 1) '\x7d' ++ rest)
      pos acc stack
    = blockSteps fr rest (pos + 2 * (N + 1)) (blkChain N :: acc) stack := by
  induction N with
  | zero =>
    intro fr pos acc stack rest
    have he : 2 * (0 + 1) + fr = (fr + 1) + 1 := by omega
    rw [he]
    show blockSteps (fr + 1 + 1) ('\x7b' :: '\x7d' :: rest) pos acc stack = _
    rw [blockSteps.eq_def]
    dsimp only
    simp only [reduceIte]
    rw [blockSteps.eq_def]
    dsimp only
    simp only [reduceIte]
    rw [show pos + 1 + 1 = pos + 2 * (0 + 1) from by omega]
    rfl
  | succ N ih =>
    intro fr pos acc stack rest
    have he : 2 * (N + 1 + 1) + fr = (2 * (N + 1) + (fr + 1)) + 1 := by omega
    rw [he]
    have hl : List.replicate (N + 1 + 1) '\x7b' ++
        List.replicate (N + 1 + 1) '\x7d' ++ rest
        = '\x7b' :: (List.replicate (N + 1) '\x7b' ++
            List.replicate (N + 1) '\x7d' ++ ('\x7d' :: rest)) := by
      conv_lhs => rw [List.replicate_succ (n := N + 1),
        List.replicate_succ' (N + 1)]
      simp [List.append_assoc]
    rw [hl]
    rw [blockSteps.eq_def]
    dsimp only
    simp only [reduceIte]
    rw [ih (fr + 1) (pos + 1) [] (acc :: stack) ('\x7d' :: rest)]
    rw [blockSteps.eq_def]
    dsimp only
    simp only [reduceIte]
    rw [show pos + 1 + 2 * (N + 1) + 1 = pos + 2 * (N + 1 + 1) from by omega]
    rfl

/-- A block consisting of braces nested to depth `N + 1`, at the end of
the input, parses to the corresponding chain of nested block items and
consumes the whole input. -/
theorem blockP_nested (N : Nat) (pos : Nat) :
    blockP (List.replicate (N + 1) '\x7b' ++ List.replicate (N + 1) '\x7d') pos
      = .ok (nestItems N, [], pos + 2 * (N + 1)) := by
  cases N with
  | zero => rfl
  | succ m =>
    have hl : List.replicate (m + 1 + 1) '\x7b' ++
        List.replicate (m + 1 + 1) '\x7d'
        = '\x7b' :: (List.replicate (m + 1) '\x7b' ++
            List.replicate (m + 1) '\x7d' ++ ['\x7d']) := by
      conv_lhs => rw [List.replicate_succ (n := m + 1),
        List.replicate_succ' (m + 1)]
      simp [List.append_assoc]
    rw [hl]
    rw [blockP]
    simp only [reduceIte]
    have hlen : (List.replicate (m + 1) '\x7b' ++ List.replicate (m + 1) '\x7d'
        ++ ['\x7d']).length = 2 * (m + 1) + 1 := by
      simp
      omega
    rw [hlen]
    rw [blockSteps_nested m 1 (pos + 1) [] [] ['\x7d']]
    rw [blockSteps.eq_def]
    dsimp only
    simp only [reduceIte]
    rw [show pos + 1 + 2 * (m + 1) + 1 = pos + 2 * (m + 1 + 1) from by omega]
    rfl

set_option smartUnfolding false in
/-- Parsing the fixed declaration header `f (a: Int) -> (a) ` followed by
braces nested to depth `m + 1` reduces to running the block rule on the
braces: the header is consumed by the identifier, parameter-list and
arrow rules, and the trailing block list finds no further block. -/
theorem declP_c3 (m : Nat) :
    declP ("f (a: Int) -> (a) ".data ++
      (List.replicate (m + 1) '\x7b' ++ List.replicate (m + 1) '\x7d')) 0 =
    .ok (⟨"f", [⟨"a", some (.ty .Int)⟩], [⟨"a", none⟩], [nestItems m]⟩,
      [], 18 + 2 * (m + 1)) := by
  have hstep : declP ("f (a: Int) -> (a) ".data ++
      (List.replicate (m + 1) '\x7b' ++ List.replicate (m + 1) '\x7d')) 0 =
      (match blockP (List.replicate (m + 1) '\x7b' ++
          List.replicate (m + 1) '\x7d') 18 with
       | .ok (b1, s5, p5) =>
         (match blocksLoop s5.length s5 p5 [b1] with
          | .ok (blks, s6, p6) =>
            .ok ((⟨"f", [⟨"a", some (.ty .Int)⟩], [⟨"a", none⟩], blks⟩ : Decl),
              s6, p6)
          | .error e => .error e)
       | .error e => .error e) := rfl
  rw [hstep, blockP_nested m 18]
  rfl

/-- A declaration whose single block is braces nested to depth `m + 1`
parses successfully, consuming the whole input. -/
theorem programL_c3 (m : Nat) :
    programL ("f (a: Int) -> (a) ".data ++
      (List.replicate (m + 1) '\x7b' ++ List.replicate (m + 1) '\x7d')) =
    .ok ([⟨"f", [⟨"a", some (.ty .Int)⟩], [⟨"a", none⟩], [nestItems m]⟩],
      [], 18 + 2 * (m + 1)) := by
  have hlen : ("f (a: Int) -> (a) ".data ++
      (List.replicate (m + 1) '\x7b' ++ List.replicate (m + 1) '\x7d')).length
      = (2 * m + 19) + 1 := by
    simp
    omega
  rw [programL, hlen, declsLoop]
  have h0 : wsLen ("f (a: Int) -> (a) ".data ++
      (List.replicate (m + 1) '\x7b' ++ List.replicate (m + 1) '\x7d')) = 0 := rfl
  rw [h0, List.drop_zero, Nat.add_zero, declP_c3 m]
  rfl

/-- C1: for every input on which it succeeds, the entry operation
`program` returns a parsed `Program` together with the unconsumed
remainder of the input — the remainder is exactly the suffix of the
input starting at the final offset — and trailing unparsed text after a
valid program does not by itself cause `program` to fail, witnessed by a
valid declaration followed by trailing junk parsing successfully with a
nonempty remainder. -/
theorem claim_C1 :
    (∀ (l : List Char) (p : Program) (rest : List Char) (pos : Nat),
      programL l = .ok (p, rest, pos) → rest = l.drop pos ∧ pos ≤ l.length) ∧
    (∃ (p : Program) (rest : List Char) (pos : Nat),
      program "f (a: Int) -> (a) \x7b 1 \x7d @@@" = .ok (p, rest, pos) ∧
        rest ≠ []) := by
  constructor
  · intro l p rest pos h
    obtain ⟨k, hkle, hr, hp⟩ := declsLoop_adv h
    have : pos = k := by omega
    subst this
    exact ⟨hr, hkle⟩
  · exact ⟨[⟨"f", [⟨"a", some (.ty .Int)⟩], [⟨"a", none⟩],
      [[BlockItem.lit 1]]⟩], " @@@".data, 23, rfl, by simp⟩

/-- Witness for C1: instantiating the remainder property at the fully
consumed concrete input of the specification scenario. -/
theorem claim_C1_witness :
    ([] : List Char) = "f (a: Int) -> (a) \x7b 1 \x7d".data.drop 23 ∧
      23 ≤ "f (a: Int) -> (a) \x7b 1 \x7d".data.length :=
  claim_C1.1 "f (a: Int) -> (a) \x7b 1 \x7d".data
    [⟨"f", [⟨"a", some (.ty .Int)⟩], [⟨"a", none⟩], [[BlockItem.lit 1]]⟩]
    [] 23 rfl

/-- C2: the input `f (a: Int) -> (a) { 1 }` is accepted by `program`,
producing a single top-level declaration named `f` with exactly one
parameter `a` of type `Int`, a result list containing exactly the bare
identifier `a`, and one block whose sole content is the integer
literal `1`; the whole input is consumed. -/
theorem claim_C2 :
    program "f (a: Int) -> (a) \x7b 1 \x7d" =
      .ok ([⟨"f", [⟨"a", some (.ty .Int)⟩], [⟨"a", none⟩],
        [[BlockItem.lit 1]]⟩], [], 23) := rfl

/-- C3: for every nesting depth `N` from 1 up to 20 (the proof covers
every `N ≥ 1`), the declaration `f (a: Int) -> (a) ` followed by
balanced braces nested to depth `N` parses successfully; an unmatched
opening brace fails with an error positioned at end-of-input (offset 21
on the 21-character input); and a stray unmatched closing brace where a
block is required fails at that brace's offset (the closing brace is the
character at offset 18). -/
theorem claim_C3 :
    (∀ N, 1 ≤ N → N ≤ 20 →
      programL ("f (a: Int) -> (a) ".data ++
        (List.replicate N '\x7b' ++ List.replicate N '\x7d')) =
      .ok ([⟨"f", [⟨"a", some (.ty .Int)⟩], [⟨"a", none⟩],
        [nestItems (N - 1)]⟩], [], 18 + 2 * N)) ∧
    (program "f (a: Int) -> (a) \x7b 1" = .error ⟨21, "closing brace"⟩ ∧
      "f (a: Int) -> (a) \x7b 1".data.length = 21) ∧
    (program "f (a: Int) -> (a) \x7d" = .error ⟨18, "opening brace"⟩ ∧
      "f (a: Int) -> (a) \x7d".data.drop 18 = ['\x7d']) := by
  refine ⟨?_, ⟨rfl, rfl⟩, ⟨rfl, rfl⟩⟩
  intro N h1 h2
  obtain ⟨m, rfl⟩ : ∃ m, N = m + 1 := ⟨N - 1, by omega⟩
  simpa using programL_c3 m

/-- Witness for C3: the bounded nesting property instantiated at the
maximal depth 20. -/
theorem claim_C3_witness :
    programL ("f (a: Int) -> (a) ".data ++
      (List.replicate 20 '\x7b' ++ List.replicate 20 '\x7d')) =
    .ok ([⟨"f", [⟨"a", some (.ty .Int)⟩], [⟨"a", none⟩],
      [nestItems 19]⟩], [], 58) :=
  claim_C3.1 20 (by norm_num) (by norm_num)

/-- C4: `program` terminates on every input by construction (it is a
total function); on the adversarial input of `n` consecutive opening
braces — for any `n ≥ 1`, including 10,000 — it returns a parse failure
as a value, at offset 0 expecting an identifier; and the repeated rule
of the program loop consumes at least one character on every successful
declaration, which is the loop's termination argument. -/
theorem claim_C4 :
    (∀ n, 1 ≤ n → programL (List.replicate n '\x7b') =
      .error ⟨0, "identifier"⟩) ∧
    (∀ (s : List Char) (pos : Nat) (d : Decl) (rest : List Char) (pos' : Nat),
      declP s pos = .ok (d, rest, pos') → rest.length < s.length) := by
  constructor
  · intro n h
    exact programL_braces h
  · intro s pos d rest pos' h
    obtain ⟨k, hk1, hkle, hr, hp⟩ := declP_adv h
    have := congrArg List.length hr
    simp at this
    omega

/-- Witness for C4: the braces property at n = 10000, and the
consumption property at the concrete declaration of the specification
scenario, whose parse consumes all 23 characters. -/
theorem claim_C4_witness :
    programL (List.replicate 10000 '\x7b') = .error ⟨0, "identifier"⟩ ∧
      ([] : List Char).length < "f (a: Int) -> (a) \x7b 1 \x7d".data.length :=
  ⟨claim_C4.1 10000 (by norm_num),
    claim_C4.2 "f (a: Int) -> (a) \x7b 1 \x7d".data 0
      ⟨"f", [⟨"a", some (.ty .Int)⟩], [⟨"a", none⟩], [[BlockItem.lit 1]]⟩
      [] 23 rfl⟩

/-- C7: the empty input is rejected: a program requires at least one
declaration, and on `""` the first declaration fails at offset 0
expecting an identifier. -/
theorem claim_C7 : program "" = .error ⟨0, "identifier"⟩ := rfl

/-- C8: a failing `program` run returns a `ParseError` whose offset lies
inside the input (together with the expected construct it carries by
construction), and when both alternatives of an ordered choice fail, the
error reported is the one from the alternative that failed further into
the input, i.e. consumed the most input before failing. -/
theorem claim_C8 :
    (∀ (l : List Char) (e : ParseError),
      programL l = .error e → e.offset ≤ l.length) ∧
    (∀ (α : Type) (p q : List Char → Nat → PRes α) (s : List Char)
      (pos : Nat) (e1 e2 : ParseError),
      p s pos = .error e1 → q s pos = .error e2 →
      porElse p q s pos =
        .error (if e1.offset < e2.offset then e2 else e1)) := by
  refine ⟨fun l e h => programL_err h, fun α p q s pos e1 e2 h1 h2 => ?_⟩
  exact porElse_err h1 h2

/-- Witness for C8: the offset bound at the failing empty input, and the
furthest-error selection for the two alternatives of the binding
right-hand-side rule on the input `[x`, where the type alternative
consumes the opening bracket before failing at offset 1 while the
identifier alternative fails without consuming at offset 0, so the type
alternative's error is reported. -/
theorem claim_C8_witness :
    (0 : Nat) ≤ ([] : List Char).length ∧
      porElse tyRhsP identRhsP "[x".data 0 = .error ⟨1, "type"⟩ := by
  constructor
  · exact claim_C8.1 [] ⟨0, "identifier"⟩ rfl
  · have := claim_C8.2 BindingRhs tyRhsP identRhsP "[x".data 0
      ⟨1, "type"⟩ ⟨0, "identifier"⟩ rfl rfl
    simpa using this

/-- C9: a parse failure is never fatal: `program` (a total function)
returns either a success or a `ParseError` as a value, and in the
failure case the sample caller of `src/main.rs` reacts by printing the
fixed fallback message rather than the structured error. -/
theorem claim_C9 :
    ∀ s : String,
      (∃ v, program s = .ok v) ∨
      (∃ e, program s = .error e ∧
        mainOutput (.error e : Except ParseError (Program × String)) =
          mainFallback) := by
  intro s
  cases h : program s with
  | ok v => exact Or.inl ⟨v, rfl⟩
  | error e => exact Or.inr ⟨e, rfl, rfl⟩

/-- C10: at the interface consumed by `main` in `src/main.rs`, the
successful result's second component is a plain string which `main`
prints directly, the first component is discarded (the output does not
depend on it, modelled by polymorphism in `ρ`), and for every failing
outcome the observable output of `main` is exactly the constant
`Error: Not a function`, regardless of the error's offset or expected
construct (modelled by polymorphism in `ε` and the universally
quantified error). -/
theorem claim_C10 :
    (∀ (ε ρ : Type) (e : ε),
      mainOutput (ρ := ρ) (.error e) = "Error: Not a function") ∧
    (∀ (ε ρ : Type) (x : ρ) (a : String),
      mainOutput (ε := ε) (.ok (x, a)) = a) ∧
    mainFallback = "Error: Not a function" :=
  ⟨fun ε ρ e => rfl, fun ε ρ x a => rfl, rfl⟩

set_option smartUnfolding false in
/-- The type rule parses every canonically rendered type back to itself,
whatever follows it, consuming exactly the rendered characters. -/
theorem tyP_render (t : Ty) :
    ∀ (rest : List Char) (pos : Nat),
    tyP (renderTy t ++ rest) pos = .ok (t, rest, pos + (renderTy t).length) := by
  induction t with
  | Int => intro rest pos; rfl
  | Array t ih =>
    intro rest pos
    have hsplit : renderTy (.Array t) ++ rest =
        '[' :: (renderTy t ++ (']' :: rest)) := by
      show ('[' :: (renderTy t ++ [']'])) ++ rest = _
      rw [List.cons_append, List.append_assoc, List.singleton_append]
    rw [hsplit]
    have hstep : tyP ('[' :: (renderTy t ++ (']' :: rest))) pos =
        (match tyP (renderTy t ++ (']' :: rest)) (pos + 1) with
         | .ok (t1, rest2, pos2) =>
           (match rest2 with
            | ']' :: rest3 => .ok (.Array t1, rest3, pos2 + 1)
            | _ => .error ⟨pos2, "closing bracket"⟩)
         | .error e => .error e) := rfl
    rw [hstep, ih (']' :: rest) (pos + 1)]
    dsimp only
    simp [renderTy]
    omega

/-- C6: the type rule parses nested bracketed array types correctly —
every canonically rendered type, in particular `[[Int]]` standing for
`Array(Array(Int))`, parses back to itself — and the input `[Int` with a
missing closing bracket fails with a parse error. -/
theorem claim_C6 :
    (∀ (t : Ty) (rest : List Char) (pos : Nat),
      tyP (renderTy t ++ rest) pos =
        .ok (t, rest, pos + (renderTy t).length)) ∧
    tyP "[[Int]]".data 0 = .ok (.Array (.Array .Int), [], 7) ∧
    tyP "[Int".data 0 = .error ⟨4, "closing bracket"⟩ :=
  ⟨fun t => tyP_render t, rfl, rfl⟩

theorem digit_char_facts :
    ∀ d < 10, (Char.ofNat (48 + d)).toNat - 48 = d ∧
      (Char.ofNat (48 + d)).isDigit = true ∧
      (Char.ofNat (48 + d)).isWhitespace = false := by decide

/-- Every character of a rendered number is a digit. -/
theorem renderNat_digits {n : Nat} : ∀ c ∈ renderNat n, c.isDigit = true := by
  intro c hc
  unfold renderNat at hc
  by_cases h0 : n = 0
  · rw [if_pos h0] at hc
    simp at hc
    subst hc
    decide
  · rw [if_neg h0] at hc
    unfold natDigits at hc
    simp at hc
    obtain ⟨d, hd, hc⟩ := hc
    have hlt : d < 10 := Nat.digits_lt_base (by norm_num) hd
    rw [← hc]
    exact (digit_char_facts d hlt).2.1

/-- A rendered number is never empty. -/
theorem renderNat_ne_nil {n : Nat} : renderNat n ≠ [] := by
  unfold renderNat
  by_cases h0 : n = 0
  · rw [if_pos h0]
    simp
  · rw [if_neg h0]
    unfold natDigits
    simp
    exact (Nat.digits_ne_nil_iff_ne_zero).2 h0

theorem foldl_digit_chars (ds : List Nat) (h : ∀ d ∈ ds, d < 10) :
    ∀ a : Nat,
    List.foldl (fun x c => x * 10 + (c.toNat - 48)) a
        (ds.map (fun d => Char.ofNat (48 + d)))
      = List.foldl (fun x d => x * 10 + d) a ds := by
  induction ds with
  | nil => intro a; rfl
  | cons d t ih =>
    intro a
    simp only [List.map_cons, List.foldl_cons]
    rw [(digit_char_facts d (h d (by simp))).1]
    exact ih (fun x hx => h x (by simp [hx])) _

theorem foldr_eq_ofDigits (ds : List Nat) :
    List.foldr (fun d a => a * 10 + d) 0 ds = Nat.ofDigits 10 ds := by
  induction ds with
  | nil => simp [Nat.ofDigits_nil]
  | cons d t ih =>
    simp only [List.foldr_cons, Nat.ofDigits_cons, ih]
    omega

/-- Reading back the canonical decimal rendering returns the number. -/
theorem digitsToNat_renderNat (n : Nat) : digitsToNat (renderNat n) = n := by
  unfold renderNat
  by_cases h0 : n = 0
  · rw [if_pos h0, h0]
    rfl
  · rw [if_neg h0]
    unfold digitsToNat natDigits
    rw [foldl_digit_chars _
      (fun d hd => Nat.digits_lt_base (by norm_num) (by simpa using hd))]
    rw [List.foldl_reverse]
    rw [foldr_eq_ofDigits]
    exact Nat.ofDigits_digits 10 n

/-- The four whitespace characters recognized by `Char.isWhitespace`. -/
theorem ws_cases {c : Char} (h : c.isWhitespace = true) :
    c = ' ' ∨ c = '\t' ∨ c = '\r' ∨ c = '\n' := by
  simp [Char.isWhitespace] at h
  tauto

theorem ws_not_digit {c : Char} (h : c.isWhitespace = true) :
    c.isDigit = false := by
  rcases ws_cases h with h1 | h1 | h1 | h1 <;> subst h1 <;> decide

theorem ws_not_ident {c : Char} (h : c.isWhitespace = true) :
    isIdentChar c = false := by
  rcases ws_cases h with h1 | h1 | h1 | h1 <;> subst h1 <;> decide

theorem alpha_not_ws {c : Char} (h : c.isAlpha = true) :
    c.isWhitespace = false := by
  by_cases hw : c.isWhitespace = true
  · rcases ws_cases hw with h1 | h1 | h1 | h1 <;> subst h1 <;>
      exact absurd h (by decide)
  · simp only [Bool.not_eq_true] at hw
    exact hw

theorem digit_not_ws {c : Char} (h : c.isDigit = true) :
    c.isWhitespace = false := by
  by_cases hw : c.isWhitespace = true
  · rw [ws_not_digit hw] at h
    exact Bool.noConfusion h
  · simp only [Bool.not_eq_true] at hw
    exact hw

theorem alpha_ne_of_not_alpha {c d : Char} (h : c.isAlpha = true)
    (hd : d.isAlpha = false) : c ≠ d := by
  intro he
  rw [he, hd] at h
  exact Bool.noConfusion h

theorem digit_ne_of_not_digit {c d : Char} (h : c.isDigit = true)
    (hd : d.isDigit = false) : c ≠ d := by
  intro he
  rw [he, hd] at h
  exact Bool.noConfusion h

theorem chunk_facts {c : Char} (h : isChunkChar c = true) :
    c ≠ '\x7b' ∧ c ≠ '\x7d' ∧ c.isWhitespace = false := by
  unfold isChunkChar at h
  simp only [Bool.not_eq_true', Bool.or_eq_false_iff,
    decide_eq_false_iff_not] at h
  exact ⟨h.1.1, h.1.2, h.2⟩

/-- Stopping a takeWhile run exactly at the end of a prefix whose
members all satisfy the predicate, when the continuation starts with a
character that does not. -/
theorem takeWhile_append_stop {p : Char → Bool} {l1 l2 : List Char}
    (h1 : ∀ c ∈ l1, p c = true)
    (h2 : ∀ c cs, l2 = c :: cs → p c = false) :
    (l1 ++ l2).takeWhile p = l1 := by
  induction l1 with
  | nil =>
    rcases l2 with _ | ⟨c, cs⟩
    · rfl
    · simp [List.takeWhile_cons, h2 c cs rfl]
  | cons a l ih =>
    simp only [List.cons_append]
    rw [List.takeWhile_cons_of_pos (h1 a (by simp))]
    rw [ih (fun c hc => h1 c (by simp [hc]))]

/-- The whitespace run of a list whose head is not whitespace is
empty. -/
theorem wsLen_eq_zero {s : List Char}
    (h : ∀ c cs, s = c :: cs → c.isWhitespace = false) : wsLen s = 0 := by
  rcases s with _ | ⟨c, cs⟩
  · rfl
  · exact wsLen_cons_of_not_ws cs (h c cs rfl)

/-- The whitespace run of a single space followed by a non-whitespace
continuation has length one. -/
theorem wsLen_space {s : List Char}
    (h : ∀ c cs, s = c :: cs → c.isWhitespace = false) :
    wsLen (' ' :: s) = 1 := by
  unfold wsLen
  rw [List.takeWhile_cons_of_pos (by decide)]
  have : s.takeWhile (fun c => c.isWhitespace) = [] := by
    rcases s with _ | ⟨c, cs⟩
    · rfl
    · simp [List.takeWhile_cons, h c cs rfl]
  rw [this]
  rfl

/-- A valid identifier rendered in front of a continuation that cannot
extend it parses back to exactly itself. -/
theorem identP_render {s : String} (hv : validIdent s = true)
    {rest : List Char} (hrest : ∀ c cs, rest = c :: cs → isIdentChar c = false)
    (pos : Nat) :
    identP (s.data ++ rest) pos = .ok (s, rest, pos + s.data.length) := by
  obtain ⟨l⟩ := s
  unfold validIdent at hv
  dsimp only at hv ⊢
  rcases l with _ | ⟨c, tl⟩
  · simp at hv
  · simp only [Bool.and_eq_true, List.all_eq_true] at hv
    obtain ⟨hca, htl⟩ := hv
    rw [List.cons_append, identP, if_pos hca]
    rw [takeWhile_append_stop (fun x hx => htl x hx) hrest]
    rw [List.drop_left]
    simp
    omega

/-- The type rule fails cleanly on a valid identifier that does not
begin with `Int`, when followed by a continuation that cannot extend the
identifier. -/
theorem tyP_on_ident {c : Char} {tl rest : List Char} {pos : Nat}
    (hc : c.isAlpha = true)
    (hint : (c :: tl).take 3 ≠ ['I', 'n', 't'])
    (htl : ∀ x ∈ tl, isIdentChar x = true)
    (hrest : ∀ x cs, rest = x :: cs → isIdentChar x = false) :
    tyP (c :: (tl ++ rest)) pos = .error ⟨pos, "type"⟩ := by
  rw [tyP.eq_def]
  split
  · rename_i rest1 heq
    obtain ⟨hc1, heq2⟩ := List.cons.injEq .. ▸ heq
    exfalso
    rcases tl with _ | ⟨x, tl2⟩
    · simp only [List.nil_append] at heq2
      exact absurd (hrest _ _ heq2) (by decide)
    · rw [List.cons_append] at heq2
      obtain ⟨hx, heq3⟩ := List.cons.injEq .. ▸ heq2
      rcases tl2 with _ | ⟨y, tl3⟩
      · simp only [List.nil_append] at heq3
        exact absurd (hrest _ _ heq3) (by decide)
      · rw [List.cons_append] at heq3
        obtain ⟨hy, -⟩ := List.cons.injEq .. ▸ heq3
        exact hint (by rw [hc1, hx, hy]; rfl)
  · rename_i rest1 heq
    obtain ⟨hc1, -⟩ := List.cons.injEq .. ▸ heq
    exact absurd hc (by rw [hc1]; decide)
  · rfl

/-- A rendered type right hand side parses back through the ordered
choice via its first alternative. -/
theorem rhsP_render_ty (t : Ty) (rest : List Char) (pos : Nat) :
    rhsP (renderTy t ++ rest) pos =
      .ok (.ty t, rest, pos + (renderTy t).length) := by
  unfold rhsP porElse tyRhsP
  rw [tyP_render t rest pos]

/-- A rendered bare-identifier right hand side parses back through the
ordered choice: the type alternative fails cleanly and the identifier
alternative succeeds. -/
theorem rhsP_render_ident {m : String} (hv : validIdent m = true)
    (hint : m.data.take 3 ≠ ['I', 'n', 't'])
    {rest : List Char} (hrest : ∀ c cs, rest = c :: cs → isIdentChar c = false)
    (pos : Nat) :
    rhsP (m.data ++ rest) pos = .ok (.ident m, rest, pos + m.data.length) := by
  have hv2 := hv
  unfold validIdent at hv2
  rcases hm : m.data with _ | ⟨c, tl⟩
  · rw [hm] at hv2
    simp at hv2
  · rw [hm] at hv2
    simp only [Bool.and_eq_true, List.all_eq_true] at hv2
    obtain ⟨hca, htl⟩ := hv2
    have herr : tyP ((c :: tl) ++ rest) pos = .error ⟨pos, "type"⟩ := by
      rw [List.cons_append]
      exact tyP_on_ident hca (hm ▸ hint) (fun x hx => htl x hx) hrest
    have hidp := identP_render hv hrest pos
    rw [hm] at hidp
    unfold rhsP porElse tyRhsP identRhsP
    rw [herr, hidp]

/-- The rendering of a right hand side is nonempty and starts with a
non-whitespace character. -/
theorem renderRhs_head {r : BindingRhs} (hv : ValidRhs r = true) :
    ∃ c tl, renderRhs r = c :: tl ∧ c.isWhitespace = false := by
  rcases r with t | m
  · rcases t with _ | t
    · exact ⟨'I', _, rfl, by decide⟩
    · exact ⟨'[', _, rfl, by decide⟩
  · unfold ValidRhs at hv
    simp only [Bool.and_eq_true] at hv
    unfold validIdent at hv
    rcases hm : m.data with _ | ⟨c, tl⟩
    · rw [hm] at hv
      simp at hv
    · rw [hm] at hv
      simp only [Bool.and_eq_true] at hv
      exact ⟨c, tl, hm, alpha_not_ws hv.1.1⟩

/-- A rendered bare binding parses back to the bare entry, leaving the
continuation untouched. -/
theorem bindingP_render_bare {nm : String} (hv : validIdent nm = true)
    {rest : List Char}
    (hrest : ∀ c cs, rest = c :: cs →
      isIdentChar c = false ∧ c.isWhitespace = false ∧ c ≠ ':')
    (pos : Nat) :
    bindingP (nm.data ++ rest) pos =
      .ok (⟨nm, none⟩, rest, pos + nm.data.length) := by
  unfold bindingP
  rw [identP_render hv (fun c cs h => (hrest c cs h).1) pos]
  dsimp only
  rw [wsLen_eq_zero (fun c cs h => (hrest c cs h).2.1), List.drop_zero]
  rcases hr : rest with _ | ⟨c, cs⟩
  · dsimp only
    rw [Nat.add_zero]
  · dsimp only
    rw [if_neg (hrest c cs hr).2.2]
    rw [Nat.add_zero]

/-- A rendered typed or identifier binding parses back to the annotated
entry, leaving the continuation untouched. -/
theorem bindingP_render_rhs {nm : String} {r : BindingRhs}
    (hv : validIdent nm = true) (hvr : ValidRhs r = true)
    {rest : List Char}
    (hrest : ∀ c cs, rest = c :: cs → isIdentChar c = false)
    (pos : Nat) :
    bindingP ((nm.data ++ (':' :: ' ' :: renderRhs r)) ++ rest) pos =
      .ok (⟨nm, some r⟩, rest,
        pos + nm.data.length + 2 + (renderRhs r).length) := by
  have hassoc : (nm.data ++ (':' :: ' ' :: renderRhs r)) ++ rest
      = nm.data ++ (':' :: ' ' :: (renderRhs r ++ rest)) := by
    simp [List.append_assoc]
  rw [hassoc]
  unfold bindingP
  rw [identP_render hv
    (fun c cs h => by injection h with h1 h2; rw [← h1]; decide) pos]
  dsimp only
  rw [wsLen_cons_of_not_ws _ (by decide), List.drop_zero]
  dsimp only
  simp only [reduceIte]
  obtain ⟨c0, tl0, hrr, hc0⟩ := renderRhs_head hvr
  have hws1 : wsLen (' ' :: (renderRhs r ++ rest)) = 1 := by
    apply wsLen_space
    intro c cs h
    rw [hrr, List.cons_append] at h
    injection h with h1 h2
    rw [← h1]
    exact hc0
  rw [hws1]
  rw [show (' ' :: (renderRhs r ++ rest)).drop 1 = renderRhs r ++ rest from rfl]
  rcases r with t | m
  · rw [show renderRhs (BindingRhs.ty t) = renderTy t from rfl]
    rw [rhsP_render_ty t rest _]
  · unfold ValidRhs at hvr
    simp only [Bool.and_eq_true, decide_eq_true_eq] at hvr
    rw [show renderRhs (.ident m) = m.data from rfl]
    rw [rhsP_render_ident hvr.1 hvr.2 hrest _]

/-- A takeWhile run over a list whose head fails the predicate is
empty. -/
theorem takeWhile_nil_stop {p : Char → Bool} {l : List Char}
    (h : ∀ c cs, l = c :: cs → p c = false) : l.takeWhile p = [] := by
  rcases l with _ | ⟨c, cs⟩
  · rfl
  · simp [List.takeWhile_cons, h c cs rfl]

/-- One step of the balanced-brace machine on a single space followed by
a non-whitespace character: the space is consumed and nothing else. -/
theorem bs_step_ws {m : Nat} {rest : List Char} {pos : Nat}
    {acc : List BlockItem} {stack : List (List BlockItem)}
    (hstop : ∀ c cs, rest = c :: cs → c.isWhitespace = false) :
    blockSteps (m + 1) (' ' :: rest) pos acc stack
      = blockSteps m rest (pos + 1) acc stack := by
  rw [blockSteps.eq_def]
  dsimp only
  rw [if_neg (by decide), if_neg (by decide), if_pos (by decide)]
  rw [takeWhile_nil_stop hstop]
  simp only [List.length_nil, List.drop_zero, Nat.add_zero]

/-- One step of the balanced-brace machine on a closing brace with an
empty nesting stack: the current block is complete. -/
theorem bs_step_close_nil {m : Nat} {rest : List Char} {pos : Nat}
    {acc : List BlockItem} :
    blockSteps (m + 1) ('\x7d' :: rest) pos acc []
      = .ok (acc.reverse, rest, pos + 1) := by
  rw [blockSteps.eq_def]
  dsimp only
  rw [if_pos rfl]

/-- One step of the balanced-brace machine on a closing brace with a
nonempty nesting stack: the innermost open block is closed and pushed
onto the enclosing item list. -/
theorem bs_step_close_cons {m : Nat} {rest : List Char} {pos : Nat}
    {acc top : List BlockItem} {stk : List (List BlockItem)} :
    blockSteps (m + 1) ('\x7d' :: rest) pos acc (top :: stk)
      = blockSteps m rest (pos + 1) (BlockItem.blk acc.reverse :: top) stk := by
  rw [blockSteps.eq_def]
  dsimp only
  rw [if_pos rfl]

/-- One step of the balanced-brace machine on an opening brace: a fresh
item list is started and the current one is pushed onto the stack. -/
theorem bs_step_open {m : Nat} {rest : List Char} {pos : Nat}
    {acc : List BlockItem} {stack : List (List BlockItem)} :
    blockSteps (m + 1) ('\x7b' :: rest) pos acc stack
      = blockSteps m rest (pos + 1) [] (acc :: stack) := by
  rw [blockSteps.eq_def]
  dsimp only
  rw [if_neg (by decide), if_pos rfl]

/-- One step of the balanced-brace machine on a maximal digit run: the
whole run is consumed as one integer literal item. -/
theorem bs_step_digit {m : Nat} {c : Char} {tl X : List Char} {pos : Nat}
    {acc : List BlockItem} {stack : List (List BlockItem)}
    (hc : c.isDigit = true) (htl : ∀ x ∈ tl, x.isDigit = true)
    (hstop : ∀ x xs, X = x :: xs → x.isDigit = false) :
    blockSteps (m + 1) (c :: (tl ++ X)) pos acc stack
      = blockSteps m X (pos + 1 + tl.length)
          (BlockItem.lit (Int.ofNat (digitsToNat (c :: tl))) :: acc)
          stack := by
  rw [blockSteps.eq_def]
  dsimp only
  rw [if_neg (digit_ne_of_not_digit hc (by decide)),
    if_neg (digit_ne_of_not_digit hc (by decide)),
    if_neg (by rw [digit_not_ws hc]; exact Bool.false_ne_true),
    if_pos hc]
  rw [takeWhile_append_stop htl hstop, List.drop_left]

/-- One step of the balanced-brace machine on a maximal run of chunk
characters starting with a non-digit: the whole run is consumed as one
text-chunk item. -/
theorem bs_step_chunk {m : Nat} {c : Char} {tl X : List Char} {pos : Nat}
    {acc : List BlockItem} {stack : List (List BlockItem)}
    (hc : isChunkChar c = true) (hcd : c.isDigit = false)
    (htl : ∀ x ∈ tl, isChunkChar x = true)
    (hstop : ∀ x xs, X = x :: xs → isChunkChar x = false) :
    blockSteps (m + 1) (c :: (tl ++ X)) pos acc stack
      = blockSteps m X (pos + 1 + tl.length)
          (BlockItem.chunk (String.mk (c :: tl)) :: acc) stack := by
  obtain ⟨hc1, hc2, hc3⟩ := chunk_facts hc
  rw [blockSteps.eq_def]
  dsimp only
  rw [if_neg hc2, if_neg hc1,
    if_neg (by rw [hc3]; exact Bool.false_ne_true),
    if_neg (by rw [hcd]; exact Bool.false_ne_true)]
  rw [takeWhile_append_stop htl hstop, List.drop_left]

/-- The rendering of a valid block item is nonempty and starts with a
non-whitespace character. -/
theorem renderItem_head {i : BlockItem} (hv : ValidItem i = true) :
    ∃ c tl, renderItem i = c :: tl ∧ c.isWhitespace = false := by
  rcases i with items | n | s
  · exact ⟨'\x7b', _, rfl, by decide⟩
  · rcases hd : renderNat n.toNat with _ | ⟨c, tl⟩
    · exact absurd hd renderNat_ne_nil
    · refine ⟨c, tl, hd, ?_⟩
      exact digit_not_ws (renderNat_digits c (by rw [hd]; exact List.mem_cons_self c tl))
  · unfold ValidItem at hv
    rcases hs : s.data with _ | ⟨c, tl⟩
    · rw [hs] at hv
      exact Bool.noConfusion hv
    · rw [hs] at hv
      simp only [Bool.and_eq_true] at hv
      refine ⟨c, tl, by rw [renderItem, hs], (chunk_facts hv.1.1).2.2⟩

/-- The continuation after one rendered item — the rendering of the
remaining items followed by a stopped tail — starts, if nonempty, with a
character that extends neither a digit run nor a chunk run. -/
theorem itemsTail_stop {is : List BlockItem} {tail : List Char}
    (htail : ∀ c cs, tail = c :: cs →
      c.isDigit = false ∧ isChunkChar c = false) :
    ∀ c cs, renderItems is ++ tail = c :: cs →
      c.isDigit = false ∧ isChunkChar c = false := by
  rcases is with _ | ⟨i, is2⟩
  · intro c cs h
    rw [show renderItems [] = [] from rfl, List.nil_append] at h
    exact htail c cs h
  · intro c cs h
    rw [show renderItems (i :: is2) = ' ' :: (renderItem i ++ renderItems is2)
      from rfl, List.cons_append] at h
    injection h with h1 h2
    rw [← h1]
    exact ⟨by decide, by decide⟩

/-- Running the balanced-brace machine over the rendering of a list of
valid items consumes it completely, pushing the items (newest first)
onto the accumulator and continuing on the stopped tail with at least
the leftover fuel, in the same enclosing state.  The bound `N` on the
size of the item list drives the induction through nested blocks. -/
theorem blockSteps_render (N : Nat) :
    ∀ (l : List BlockItem), sizeOf l ≤ N → ValidItems l = true →
    ∀ (tail : List Char),
    (∀ c cs, tail = c :: cs → c.isDigit = false ∧ isChunkChar c = false) →
    ∀ (pos : Nat) (acc : List BlockItem) (stack : List (List BlockItem))
      (fr : Nat),
    ∃ fr2, fr ≤ fr2 ∧
      blockSteps ((renderItems l).length + fr) (renderItems l ++ tail)
        pos acc stack
      = blockSteps fr2 tail (pos + (renderItems l).length)
          (l.reverse ++ acc) stack := by
  induction N with
  | zero =>
    intro l hsize hv tail htail pos acc stack fr
    rcases l with _ | ⟨i, is⟩
    · exact ⟨fr, Nat.le_refl fr, by
        rw [show renderItems [] = [] from rfl]
        simp⟩
    · exfalso
      simp only [List.cons.sizeOf_spec] at hsize
      omega
  | succ N ih =>
    intro l hsize hv tail htail pos acc stack fr
    rcases l with _ | ⟨i, is⟩
    · exact ⟨fr, Nat.le_refl fr, by
        rw [show renderItems [] = [] from rfl]
        simp⟩
    · rw [show ValidItems (i :: is) = (ValidItem i && ValidItems is)
        from rfl] at hv
      simp only [Bool.and_eq_true] at hv
      obtain ⟨hvi, hvis⟩ := hv
      simp only [List.cons.sizeOf_spec] at hsize
      have hsis : sizeOf is ≤ N := by omega
      have hlen : (renderItems (i :: is)).length
          = (renderItem i).length + (renderItems is).length + 1 := by
        rw [show renderItems (i :: is)
          = ' ' :: (renderItem i ++ renderItems is) from rfl]
        simp
      obtain ⟨c0, tl0, hri, hc0⟩ := renderItem_head hvi
      have hws : blockSteps ((renderItems (i :: is)).length + fr)
          (renderItems (i :: is) ++ tail) pos acc stack
          = blockSteps ((renderItem i).length + (renderItems is).length + fr)
              (renderItem i ++ (renderItems is ++ tail)) (pos + 1) acc
              stack := by
        rw [show renderItems (i :: is) ++ tail
          = ' ' :: (renderItem i ++ (renderItems is ++ tail)) from by
            rw [show renderItems (i :: is)
              = ' ' :: (renderItem i ++ renderItems is) from rfl]
            simp [List.append_assoc]]
        rw [show (renderItems (i :: is)).length + fr
          = ((renderItem i).length + (renderItems is).length + fr) + 1
          from by omega]
        exact bs_step_ws (by
          intro c cs h
          rw [hri, List.cons_append] at h
          injection h with h1 h2
          rw [← h1]
          exact hc0)
      rcases i with inner | n | s
      · rw [show ValidItem (BlockItem.blk inner) = ValidItems inner
          from rfl] at hvi
        simp only [BlockItem.blk.sizeOf_spec] at hsize
        have hsinner : sizeOf inner ≤ N := by omega
        have hlen2 : (renderItem (BlockItem.blk inner)).length
            = (renderItems inner).length + 3 := by
          rw [show renderItem (BlockItem.blk inner)
            = '\x7b' :: (renderItems inner ++ [' ', '\x7d']) from rfl]
          simp
        have hopen : blockSteps ((renderItem (BlockItem.blk inner)).length
              + (renderItems is).length + fr)
            (renderItem (BlockItem.blk inner) ++ (renderItems is ++ tail))
            (pos + 1) acc stack
            = blockSteps ((renderItems inner).length
                + (2 + (renderItems is).length + fr))
              (renderItems inner
                ++ (' ' :: '\x7d' :: (renderItems is ++ tail)))
              (pos + 1 + 1) [] (acc :: stack) := by
          rw [show renderItem (BlockItem.blk inner) ++ (renderItems is ++ tail)
            = '\x7b' :: (renderItems inner
                ++ (' ' :: '\x7d' :: (renderItems is ++ tail))) from by
              rw [show renderItem (BlockItem.blk inner)
                = '\x7b' :: (renderItems inner ++ [' ', '\x7d']) from rfl]
              simp [List.append_assoc]]
          rw [show (renderItem (BlockItem.blk inner)).length
              + (renderItems is).length + fr
            = ((renderItems inner).length
                + (2 + (renderItems is).length + fr)) + 1 from by omega]
          exact bs_step_open
        obtain ⟨g2, hg2, hinner⟩ := ih inner hsinner hvi
          (' ' :: '\x7d' :: (renderItems is ++ tail))
          (by
            intro c cs h
            injection h with h1 h2
            rw [← h1]
            exact ⟨by decide, by decide⟩)
          (pos + 1 + 1) [] (acc :: stack)
          (2 + (renderItems is).length + fr)
        obtain ⟨m2, rfl⟩ : ∃ m2, g2 = m2 + 2 := ⟨g2 - 2, by omega⟩
        have hws2 : blockSteps (m2 + 2)
            (' ' :: '\x7d' :: (renderItems is ++ tail))
            (pos + 1 + 1 + (renderItems inner).length)
            (inner.reverse ++ []) (acc :: stack)
            = blockSteps (m2 + 1) ('\x7d' :: (renderItems is ++ tail))
              (pos + 1 + 1 + (renderItems inner).length + 1)
              (inner.reverse ++ []) (acc :: stack) := by
          rw [show m2 + 2 = (m2 + 1) + 1 from rfl]
          exact bs_step_ws (by
            intro c cs h
            injection h with h1 h2
            rw [← h1]
            decide)
        have hclose : blockSteps (m2 + 1)
            ('\x7d' :: (renderItems is ++ tail))
            (pos + 1 + 1 + (renderItems inner).length + 1)
            (inner.reverse ++ []) (acc :: stack)
            = blockSteps m2 (renderItems is ++ tail)
              (pos + 1 + 1 + (renderItems inner).length + 1 + 1)
              (BlockItem.blk inner :: acc) stack := by
          rw [bs_step_close_cons]
          simp
        obtain ⟨fr2, hfr2, hrest⟩ := ih is hsis hvis tail htail
          (pos + 1 + 1 + (renderItems inner).length + 1 + 1)
          (BlockItem.blk inner :: acc) stack
          (m2 - (renderItems is).length)
        have hm2 : m2 = (renderItems is).length
            + (m2 - (renderItems is).length) := by omega
        rw [← hm2] at hrest
        have hchain := (hws.trans hopen).trans
          ((hinner.trans (hws2.trans hclose)).trans hrest)
        refine ⟨fr2, by omega, ?_⟩
        rw [show pos + 1 + 1 + (renderItems inner).length + 1 + 1
            + (renderItems is).length
          = pos + (renderItems (BlockItem.blk inner :: is)).length
          from by omega] at hchain
        rw [show is.reverse ++ (BlockItem.blk inner :: acc)
          = (BlockItem.blk inner :: is).reverse ++ acc from by simp] at hchain
        exact hchain
      · rw [show ValidItem (BlockItem.lit n) = decide (0 ≤ n) from rfl] at hvi
        rw [decide_eq_true_eq] at hvi
        rcases hd : renderNat n.toNat with _ | ⟨c, tl⟩
        · exact absurd hd renderNat_ne_nil
        have hc : c.isDigit = true := renderNat_digits c
          (by rw [hd]; exact List.mem_cons_self c tl)
        have htl : ∀ x ∈ tl, x.isDigit = true := fun x hx =>
          renderNat_digits x (by rw [hd]; exact List.mem_cons_of_mem c hx)
        have hlen2 : (renderItem (BlockItem.lit n)).length = tl.length + 1 := by
          rw [show renderItem (BlockItem.lit n) = renderNat n.toNat from rfl,
            hd]
          simp
        have hval : Int.ofNat (digitsToNat (c :: tl)) = n := by
          rw [← hd, digitsToNat_renderNat]
          exact Int.toNat_of_nonneg hvi
        have hd1 : blockSteps ((renderItem (BlockItem.lit n)).length
              + (renderItems is).length + fr)
            (renderItem (BlockItem.lit n) ++ (renderItems is ++ tail))
            (pos + 1) acc stack
            = blockSteps ((renderItems is).length + (fr + tl.length))
              (renderItems is ++ tail) (pos + 1 + 1 + tl.length)
              (BlockItem.lit n :: acc) stack := by
          rw [show renderItem (BlockItem.lit n) ++ (renderItems is ++ tail)
            = c :: (tl ++ (renderItems is ++ tail)) from by
              rw [show renderItem (BlockItem.lit n) = renderNat n.toNat
                from rfl, hd]
              simp]
          rw [show (renderItem (BlockItem.lit n)).length
              + (renderItems is).length + fr
            = ((renderItems is).length + (fr + tl.length)) + 1 from by omega]
          rw [bs_step_digit hc htl
            (fun x xs h => (itemsTail_stop htail x xs h).1)]
          rw [hval]
        obtain ⟨fr2, hfr2, hrest⟩ := ih is hsis hvis tail htail
          (pos + 1 + 1 + tl.length) (BlockItem.lit n :: acc) stack
          (fr + tl.length)
        have hchain := (hws.trans hd1).trans hrest
        refine ⟨fr2, by omega, ?_⟩
        rw [show pos + 1 + 1 + tl.length + (renderItems is).length
          = pos + (renderItems (BlockItem.lit n :: is)).length
          from by omega] at hchain
        rw [show is.reverse ++ (BlockItem.lit n :: acc)
          = (BlockItem.lit n :: is).reverse ++ acc from by simp] at hchain
        exact hchain
      · obtain ⟨sl⟩ := s
        unfold ValidItem at hvi
        rcases sl with _ | ⟨c, tl⟩
        · exact Bool.noConfusion hvi
        simp only [Bool.and_eq_true, Bool.not_eq_true',
          List.all_eq_true] at hvi
        obtain ⟨⟨hc1, hc2⟩, hc3⟩ := hvi
        have hlen2 : (renderItem (BlockItem.chunk ⟨c :: tl⟩)).length
            = tl.length + 1 := by
          rw [show renderItem (BlockItem.chunk ⟨c :: tl⟩) = c :: tl from rfl]
          simp
        have hd1 : blockSteps ((renderItem (BlockItem.chunk ⟨c :: tl⟩)).length
              + (renderItems is).length + fr)
            (renderItem (BlockItem.chunk ⟨c :: tl⟩)
              ++ (renderItems is ++ tail))
            (pos + 1) acc stack
            = blockSteps ((renderItems is).length + (fr + tl.length))
              (renderItems is ++ tail) (pos + 1 + 1 + tl.length)
              (BlockItem.chunk ⟨c :: tl⟩ :: acc) stack := by
          rw [show renderItem (BlockItem.chunk ⟨c :: tl⟩)
              ++ (renderItems is ++ tail)
            = c :: (tl ++ (renderItems is ++ tail)) from by
              rw [show renderItem (BlockItem.chunk ⟨c :: tl⟩) = c :: tl
                from rfl]
              simp]
          rw [show (renderItem (BlockItem.chunk ⟨c :: tl⟩)).length
              + (renderItems is).length + fr
            = ((renderItems is).length + (fr + tl.length)) + 1 from by omega]
          rw [bs_step_chunk hc1 hc2 hc3
            (fun x xs h => (itemsTail_stop htail x xs h).2)]
        obtain ⟨fr2, hfr2, hrest⟩ := ih is hsis hvis tail htail
          (pos + 1 + 1 + tl.length) (BlockItem.chunk ⟨c :: tl⟩ :: acc) stack
          (fr + tl.length)
        have hchain := (hws.trans hd1).trans hrest
        refine ⟨fr2, by omega, ?_⟩
        rw [show pos + 1 + 1 + tl.length + (renderItems is).length
          = pos + (renderItems (BlockItem.chunk ⟨c :: tl⟩ :: is)).length
          from by omega] at hchain
        rw [show is.reverse ++ (BlockItem.chunk ⟨c :: tl⟩ :: acc)
          = (BlockItem.chunk ⟨c :: tl⟩ :: is).reverse ++ acc
          from by simp] at hchain
        exact hchain

/-- A rendered block of valid items parses back to exactly those items,
leaving the continuation untouched. -/
theorem blockP_render {items : List BlockItem} (hv : ValidItems items = true)
    (rest : List Char) (pos : Nat) :
    blockP (renderBlock items ++ rest) pos
      = .ok (items, rest, pos + (renderBlock items).length) := by
  have hlen : (renderBlock items).length = (renderItems items).length + 3 := by
    rw [renderBlock]
    simp
  rw [show renderBlock items ++ rest
    = '\x7b' :: (renderItems items ++ (' ' :: '\x7d' :: rest)) from by
      rw [renderBlock]
      simp [List.append_assoc]]
  rw [blockP]
  simp only [reduceIte]
  have hlen1 : (renderItems items ++ (' ' :: '\x7d' :: rest)).length
      = (renderItems items).length + (2 + rest.length) := by
    simp only [List.length_append, List.length_cons]
    omega
  rw [hlen1]
  obtain ⟨fr2, hfr2, heq⟩ := blockSteps_render (sizeOf items) items
    (Nat.le_refl _) hv (' ' :: '\x7d' :: rest)
    (by
      intro c cs h
      injection h with h1 h2
      rw [← h1]
      exact ⟨by decide, by decide⟩)
    (pos + 1) [] [] (2 + rest.length)
  rw [heq]
  obtain ⟨m2, rfl⟩ : ∃ m2, fr2 = m2 + 2 := ⟨fr2 - 2, by omega⟩
  rw [show m2 + 2 = (m2 + 1) + 1 from rfl]
  rw [bs_step_ws (by
    intro c cs h
    injection h with h1 h2
    rw [← h1]
    decide)]
  rw [bs_step_close_nil]
  simp only [List.append_nil, List.reverse_reverse]
  rw [show pos + 1 + (renderItems items).length + 1 + 1
    = pos + (renderBlock items).length from by omega]

set_option smartUnfolding false in
/-- The block-list loop over a rendering of valid blocks, with enough
fuel, consumes the whole rendering and appends the blocks in order to
the reversed accumulator. -/
theorem blocksLoop_render (bs : List (List BlockItem)) :
    ∀ (n pos : Nat) (acc : List (List BlockItem)),
    (∀ b ∈ bs, ValidItems b = true) → bs.length ≤ n →
    blocksLoop n (renderBlocks bs) pos acc
      = .ok (acc.reverse ++ bs, [], pos + (renderBlocks bs).length) := by
  induction bs with
  | nil =>
    intro n pos acc hv hn
    rw [show renderBlocks [] = ([] : List Char) from rfl]
    simp only [List.append_nil, List.length_nil, Nat.add_zero]
    rw [blocksLoop]
    rw [show blockP (List.drop (wsLen ([] : List Char)) [])
        (pos + wsLen ([] : List Char))
      = .error ⟨pos + wsLen ([] : List Char), "opening brace"⟩ from rfl]
  | cons b bs2 ih =>
    intro n pos acc hv hn
    obtain ⟨m, rfl⟩ : ∃ m, n = m + 1 :=
      ⟨n - 1, by simp only [List.length_cons] at hn; omega⟩
    have hlenc : (renderBlocks (b :: bs2)).length
        = 1 + (renderBlock b).length + (renderBlocks bs2).length := by
      rw [show renderBlocks (b :: bs2)
        = ' ' :: (renderBlock b ++ renderBlocks bs2) from rfl]
      simp
      omega
    rw [blocksLoop]
    rw [show renderBlocks (b :: bs2)
      = ' ' :: (renderBlock b ++ renderBlocks bs2) from rfl]
    have hws : wsLen (' ' :: (renderBlock b ++ renderBlocks bs2)) = 1 := by
      apply wsLen_space
      intro c cs h
      rw [show renderBlock b
        = '\x7b' :: (renderItems b ++ [' ', '\x7d']) from rfl,
        List.cons_append] at h
      injection h with h1 h2
      rw [← h1]
      decide
    rw [hws]
    rw [show (' ' :: (renderBlock b ++ renderBlocks bs2)).drop 1
      = renderBlock b ++ renderBlocks bs2 from rfl]
    rw [blockP_render (hv b (by simp)) (renderBlocks bs2) (pos + 1)]
    show blocksLoop m (renderBlocks bs2) (pos + 1 + (renderBlock b).length)
        (b :: acc)
      = Except.ok (acc.reverse ++ b :: bs2, [],
          pos + (' ' :: (renderBlock b ++ renderBlocks bs2)).length)
    rw [ih m (pos + 1 + (renderBlock b).length) (b :: acc)
      (fun x hx => hv x (by simp [hx]))
      (by simp only [List.length_cons] at hn; omega)]
    rw [show (b :: acc).reverse ++ bs2 = acc.reverse ++ (b :: bs2)
      from by simp]
    rw [show pos + 1 + (renderBlock b).length + (renderBlocks bs2).length
      = pos + (' ' :: (renderBlock b ++ renderBlocks bs2)).length from by
        simp only [List.length_cons, List.length_append]
        omega]

/-- The rendering of a nonempty entry list is its first entry followed
by the comma-separated tail. -/
theorem renderBindings_eq (bs : List Binding) : ∀ b : Binding,
    renderBindings (b :: bs) = renderBinding b ++ renderBindTail bs := by
  induction bs with
  | nil =>
    intro b
    rw [show renderBindTail [] = [] from rfl, List.append_nil]
    rw [show renderBindings [b] = renderBinding b from rfl]
  | cons c cs ih =>
    intro b
    rw [show renderBindings (b :: c :: cs)
      = renderBinding b ++ (',' :: ' ' :: renderBindings (c :: cs)) from rfl]
    rw [ih c]
    rw [show renderBindTail (c :: cs)
      = ',' :: ' ' :: (renderBinding c ++ renderBindTail cs) from rfl]

/-- The comma-separated tail is at least as long as the number of
entries it renders. -/
theorem renderBindTail_len (bs : List Binding) :
    bs.length ≤ (renderBindTail bs).length := by
  induction bs with
  | nil => exact Nat.le_refl 0
  | cons b bs2 ih =>
    rw [show renderBindTail (b :: bs2)
      = ',' :: ' ' :: (renderBinding b ++ renderBindTail bs2) from rfl]
    simp only [List.length_cons, List.length_append]
    omega

/-- The rendering of a valid entry is nonempty and starts with a
letter, the first character of its name. -/
theorem renderBinding_head {b : Binding} (hv : ValidBinding b = true) :
    ∃ c tl, renderBinding b = c :: tl ∧ c.isAlpha = true := by
  obtain ⟨nm, rhs⟩ := b
  rcases rhs with _ | r
  · unfold ValidBinding validIdent at hv
    dsimp only at hv
    rcases hm : nm.data with _ | ⟨c, tl⟩
    · rw [hm] at hv
      exact Bool.noConfusion hv
    · rw [hm] at hv
      dsimp only at hv
      simp only [Bool.and_eq_true] at hv
      exact ⟨c, tl, by rw [show renderBinding ⟨nm, none⟩ = nm.data from rfl,
        hm], hv.1⟩
  · unfold ValidBinding validIdent at hv
    dsimp only at hv
    simp only [Bool.and_eq_true] at hv
    rcases hm : nm.data with _ | ⟨c, tl⟩
    · rw [hm] at hv
      exact Bool.noConfusion hv.1
    · rw [hm] at hv
      dsimp only at hv
      simp only [Bool.and_eq_true] at hv
      refine ⟨c, tl ++ (':' :: ' ' :: renderRhs r), ?_, hv.1.1⟩
      rw [show renderBinding ⟨nm, some r⟩
        = nm.data ++ (':' :: ' ' :: renderRhs r) from rfl, hm,
        List.cons_append]

/-- A rendered valid entry — bare or annotated — parses back to itself,
leaving the continuation untouched. -/
theorem bindingP_render {b : Binding} (hv : ValidBinding b = true)
    {rest : List Char}
    (hrest : ∀ c cs, rest = c :: cs →
      isIdentChar c = false ∧ c.isWhitespace = false ∧ c ≠ ':')
    (pos : Nat) :
    bindingP (renderBinding b ++ rest) pos
      = .ok (b, rest, pos + (renderBinding b).length) := by
  obtain ⟨nm, rhs⟩ := b
  rcases rhs with _ | r
  · unfold ValidBinding at hv
    rw [show renderBinding ⟨nm, none⟩ = nm.data from rfl]
    exact bindingP_render_bare hv hrest pos
  · unfold ValidBinding at hv
    simp only [Bool.and_eq_true] at hv
    rw [show renderBinding ⟨nm, some r⟩
      = nm.data ++ (':' :: ' ' :: renderRhs r) from rfl]
    rw [bindingP_render_rhs hv.1 hv.2 (fun c cs h => (hrest c cs h).1) pos]
    rw [show pos + nm.data.length + 2 + (renderRhs r).length
      = pos + (nm.data ++ (':' :: ' ' :: renderRhs r)).length from by
        simp only [List.length_append, List.length_cons]
        omega]

/-- The binding-list loop over a rendered comma-separated tail of valid
entries, with enough fuel, consumes the whole tail, appends the entries
in order to the reversed accumulator, and backtracks cleanly at the
stopping character that follows. -/
theorem bindingsLoop_render (bs : List Binding) :
    ∀ (n pos : Nat) (acc : List Binding) (rest : List Char),
    (∀ b ∈ bs, ValidBinding b = true) →
    (∀ c cs, rest = c :: cs → c.isWhitespace = false ∧ c ≠ ',' ∧
      isIdentChar c = false ∧ c ≠ ':') →
    bs.length ≤ n →
    bindingsLoop n (renderBindTail bs ++ rest) pos acc
      = .ok (acc.reverse ++ bs, rest, pos + (renderBindTail bs).length) := by
  induction bs with
  | nil =>
    intro n pos acc rest hv hrest hn
    rw [show renderBindTail [] = [] from rfl, List.nil_append,
      List.append_nil, List.length_nil, Nat.add_zero]
    rw [bindingsLoop]
    rcases hr : rest with _ | ⟨c, cs⟩
    · rfl
    · obtain ⟨hw, hc, -, -⟩ := hrest c cs hr
      rw [show wsLen (c :: cs) = 0 from wsLen_cons_of_not_ws cs hw,
        List.drop_zero]
      dsimp only
      rw [if_neg hc]
  | cons b bs2 ih =>
    intro n pos acc rest hv hrest hn
    obtain ⟨m, rfl⟩ : ∃ m, n = m + 1 :=
      ⟨n - 1, by simp only [List.length_cons] at hn; omega⟩
    have hbv : ValidBinding b = true := hv b (by simp)
    obtain ⟨c0, tl0, hb0, halpha⟩ := renderBinding_head hbv
    have hstop : ∀ c cs, renderBindTail bs2 ++ rest = c :: cs →
        isIdentChar c = false ∧ c.isWhitespace = false ∧ c ≠ ':' := by
      rcases bs2 with _ | ⟨b2, bs3⟩
      · intro c cs h
        rw [show renderBindTail [] = [] from rfl, List.nil_append] at h
        obtain ⟨h1, h2, h3, h4⟩ := hrest c cs h
        exact ⟨h3, h1, h4⟩
      · intro c cs h
        rw [show renderBindTail (b2 :: bs3)
          = ',' :: ' ' :: (renderBinding b2 ++ renderBindTail bs3)
          from rfl] at h
        injection h with h1 h2
        rw [← h1]
        exact ⟨by decide, by decide, by decide⟩
    rw [show renderBindTail (b :: bs2) ++ rest
      = ',' :: (' ' :: (renderBinding b ++ (renderBindTail bs2 ++ rest)))
      from by
        rw [show renderBindTail (b :: bs2)
          = ',' :: ' ' :: (renderBinding b ++ renderBindTail bs2) from rfl]
        simp [List.append_assoc]]
    rw [bindingsLoop]
    rw [show wsLen (',' :: (' ' :: (renderBinding b
        ++ (renderBindTail bs2 ++ rest)))) = 0
      from wsLen_cons_of_not_ws _ (by decide), List.drop_zero]
    dsimp only
    rw [if_pos rfl]
    have hws2 : wsLen (' ' :: (renderBinding b
        ++ (renderBindTail bs2 ++ rest))) = 1 := by
      apply wsLen_space
      intro c cs h
      rw [hb0, List.cons_append] at h
      injection h with h1 h2
      rw [← h1]
      exact alpha_not_ws halpha
    rw [hws2]
    rw [show (' ' :: (renderBinding b ++ (renderBindTail bs2 ++ rest))).drop 1
      = renderBinding b ++ (renderBindTail bs2 ++ rest) from rfl]
    rw [bindingP_render hbv hstop (pos + 0 + 1 + 1)]
    show bindingsLoop m (renderBindTail bs2 ++ rest)
        (pos + 0 + 1 + 1 + (renderBinding b).length) (b :: acc)
      = Except.ok (acc.reverse ++ b :: bs2, rest,
          pos + (renderBindTail (b :: bs2)).length)
    rw [ih m (pos + 0 + 1 + 1 + (renderBinding b).length) (b :: acc) rest
      (fun x hx => hv x (by simp [hx])) hrest
      (by simp only [List.length_cons] at hn; omega)]
    rw [show (b :: acc).reverse ++ bs2 = acc.reverse ++ b :: bs2
      from by simp]
    rw [show pos + 0 + 1 + 1 + (renderBinding b).length
        + (renderBindTail bs2).length
      = pos + (renderBindTail (b :: bs2)).length from by
        rw [show renderBindTail (b :: bs2)
          = ',' :: ' ' :: (renderBinding b ++ renderBindTail bs2) from rfl]
        simp only [List.length_cons, List.length_append]
        omega]

/-- A rendered parameter list of valid entries parses back to exactly
those entries, leaving the continuation untouched. -/
theorem paramsP_render {bs : List Binding}
    (hv : ∀ b ∈ bs, ValidBinding b = true) (rest : List Char) (pos : Nat) :
    paramsP (renderParams bs ++ rest) pos
      = .ok (bs, rest, pos + (renderParams bs).length) := by
  rcases bs with _ | ⟨b, bs2⟩
  · rw [show renderParams [] ++ rest = '(' :: ')' :: rest from rfl]
    rw [paramsP]
    simp only [reduceIte]
    rw [show wsLen (')' :: rest) = 0
      from wsLen_cons_of_not_ws rest (by decide), List.drop_zero]
    dsimp only
    simp only [reduceIte]
    rw [show pos + 1 + 0 + 1 = pos + (renderParams []).length from by
      rw [show (renderParams []).length = 2 from rfl]]
  · have hbv : ValidBinding b = true := hv b (by simp)
    obtain ⟨c0, tl0, hb0, halpha⟩ := renderBinding_head hbv
    have hstop : ∀ c cs, renderBindTail bs2 ++ (')' :: rest) = c :: cs →
        isIdentChar c = false ∧ c.isWhitespace = false ∧ c ≠ ':' := by
      rcases bs2 with _ | ⟨b2, bs3⟩
      · intro c cs h
        rw [show renderBindTail [] = [] from rfl, List.nil_append] at h
        injection h with h1 h2
        rw [← h1]
        exact ⟨by decide, by decide, by decide⟩
      · intro c cs h
        rw [show renderBindTail (b2 :: bs3)
          = ',' :: ' ' :: (renderBinding b2 ++ renderBindTail bs3)
          from rfl] at h
        injection h with h1 h2
        rw [← h1]
        exact ⟨by decide, by decide, by decide⟩
    rw [show renderParams (b :: bs2) ++ rest
      = '(' :: (renderBinding b ++ (renderBindTail bs2 ++ (')' :: rest)))
      from by
        rw [renderParams, renderBindings_eq bs2 b]
        simp [List.append_assoc]]
    rw [paramsP]
    simp only [reduceIte]
    have hws1 : wsLen (renderBinding b
        ++ (renderBindTail bs2 ++ (')' :: rest))) = 0 :=
      wsLen_eq_zero (by
        intro c cs h
        rw [hb0, List.cons_append] at h
        injection h with h1 h2
        rw [← h1]
        exact alpha_not_ws halpha)
    rw [hws1, List.drop_zero]
    have hbp := bindingP_render hbv hstop (pos + 1 + 0)
    rw [hb0, List.cons_append]
    rw [hb0, List.cons_append] at hbp
    dsimp only
    rw [if_neg (alpha_ne_of_not_alpha halpha (by decide))]
    rw [hbp]
    dsimp only
    rw [bindingsLoop_render bs2
      (renderBindTail bs2 ++ (')' :: rest)).length
      (pos + 1 + 0 + (c0 :: tl0).length) [b] (')' :: rest)
      (fun x hx => hv x (by simp [hx]))
      (by
        intro c cs h
        injection h with h1 h2
        rw [← h1]
        exact ⟨by decide, by decide, by decide, by decide⟩)
      (by
        simp only [List.length_append]
        have := renderBindTail_len bs2
        omega)]
    rw [show ([b] : List Binding).reverse ++ bs2 = b :: bs2 from by simp]
    dsimp only
    rw [show wsLen (')' :: rest) = 0
      from wsLen_cons_of_not_ws rest (by decide), List.drop_zero]
    dsimp only
    simp only [reduceIte]
    rw [show pos + 1 + 0 + (c0 :: tl0).length + (renderBindTail bs2).length
        + 0 + 1
      = pos + (renderParams (b :: bs2)).length from by
        rw [show (renderParams (b :: bs2)).length
          = (renderBindings (b :: bs2)).length + 2 from by
            rw [renderParams]
            simp]
        rw [renderBindings_eq bs2 b, hb0]
        simp only [List.length_append, List.length_cons]
        omega]

/-- The rendering of a block list is at least as long as the number of
blocks it renders. -/
theorem renderBlocks_len (bs : List (List BlockItem)) :
    bs.length ≤ (renderBlocks bs).length := by
  induction bs with
  | nil => exact Nat.le_refl 0
  | cons b bs2 ih =>
    rw [show renderBlocks (b :: bs2)
      = ' ' :: (renderBlock b ++ renderBlocks bs2) from rfl]
    simp only [List.length_cons, List.length_append]
    omega

/-- A rendered valid declaration parses back to exactly itself,
consuming the whole rendering. -/
theorem declP_render {d : Decl} (hv : ValidDecl d = true) (pos : Nat) :
    declP (renderDecl d) pos = .ok (d, [], pos + (renderDecl d).length) := by
  obtain ⟨nm, ps, rs, blks⟩ := d
  unfold ValidDecl at hv
  dsimp only at hv
  simp only [Bool.and_eq_true, List.all_eq_true, Bool.not_eq_true'] at hv
  obtain ⟨⟨⟨⟨hnm, hps⟩, hrs⟩, hne⟩, hblk⟩ := hv
  rcases blks with _ | ⟨b1, bls⟩
  · exact absurd hne (by simp)
  rw [show renderDecl ⟨nm, ps, rs, b1 :: bls⟩
    = nm.data ++ (' ' :: (renderParams ps
        ++ (' ' :: '-' :: '>' :: (' ' :: (renderParams rs
            ++ (' ' :: (renderBlock b1 ++ renderBlocks bls))))))) from by
      rw [renderDecl]
      dsimp only
      rw [show renderBlocks (b1 :: bls)
        = ' ' :: (renderBlock b1 ++ renderBlocks bls) from rfl]
      simp [List.append_assoc]]
  unfold declP
  rw [identP_render hnm (by
    intro c cs h
    injection h with h1 h2
    rw [← h1]
    decide) pos]
  dsimp only
  rw [show wsLen (' ' :: (renderParams ps
      ++ (' ' :: '-' :: '>' :: (' ' :: (renderParams rs
          ++ (' ' :: (renderBlock b1 ++ renderBlocks bls))))))) = 1 from by
    apply wsLen_space
    intro c cs h
    rw [show renderParams ps = '(' :: (renderBindings ps ++ [')'])
      from rfl, List.cons_append] at h
    injection h with h1 h2
    rw [← h1]
    decide]
  rw [show List.drop 1 (' ' :: (renderParams ps
      ++ (' ' :: '-' :: '>' :: (' ' :: (renderParams rs
          ++ (' ' :: (renderBlock b1 ++ renderBlocks bls)))))))
    = renderParams ps ++ (' ' :: '-' :: '>' :: (' ' :: (renderParams rs
        ++ (' ' :: (renderBlock b1 ++ renderBlocks bls))))) from rfl]
  rw [paramsP_render hps
    (' ' :: '-' :: '>' :: (' ' :: (renderParams rs
        ++ (' ' :: (renderBlock b1 ++ renderBlocks bls)))))
    (pos + nm.data.length + 1)]
  dsimp only
  rw [show wsLen (' ' :: '-' :: '>' :: (' ' :: (renderParams rs
      ++ (' ' :: (renderBlock b1 ++ renderBlocks bls))))) = 1 from by
    apply wsLen_space
    intro c cs h
    injection h with h1 h2
    rw [← h1]
    decide]
  rw [show List.drop 1 (' ' :: '-' :: '>' :: (' ' :: (renderParams rs
      ++ (' ' :: (renderBlock b1 ++ renderBlocks bls)))))
    = '-' :: '>' :: (' ' :: (renderParams rs
        ++ (' ' :: (renderBlock b1 ++ renderBlocks bls)))) from rfl]
  dsimp only
  rw [if_pos (⟨rfl, rfl⟩ : ('-' = '-') ∧ ('>' = '>'))]
  rw [show wsLen (' ' :: (renderParams rs
      ++ (' ' :: (renderBlock b1 ++ renderBlocks bls)))) = 1 from by
    apply wsLen_space
    intro c cs h
    rw [show renderParams rs = '(' :: (renderBindings rs ++ [')'])
      from rfl, List.cons_append] at h
    injection h with h1 h2
    rw [← h1]
    decide]
  rw [show List.drop 1 (' ' :: (renderParams rs
      ++ (' ' :: (renderBlock b1 ++ renderBlocks bls))))
    = renderParams rs ++ (' ' :: (renderBlock b1 ++ renderBlocks bls))
    from rfl]
  rw [paramsP_render hrs (' ' :: (renderBlock b1 ++ renderBlocks bls))
    (pos + nm.data.length + 1 + (renderParams ps).length + 1 + 2 + 1)]
  dsimp only
  rw [show wsLen (' ' :: (renderBlock b1 ++ renderBlocks bls)) = 1 from by
    apply wsLen_space
    intro c cs h
    rw [show renderBlock b1
      = '\x7b' :: (renderItems b1 ++ [' ', '\x7d']) from rfl,
      List.cons_append] at h
    injection h with h1 h2
    rw [← h1]
    decide]
  rw [show List.drop 1 (' ' :: (renderBlock b1 ++ renderBlocks bls))
    = renderBlock b1 ++ renderBlocks bls from rfl]
  rw [blockP_render (hblk b1 (by simp)) (renderBlocks bls)
    (pos + nm.data.length + 1 + (renderParams ps).length + 1 + 2 + 1
      + (renderParams rs).length + 1)]
  dsimp only
  rw [blocksLoop_render bls (renderBlocks bls).length
    (pos + nm.data.length + 1 + (renderParams ps).length + 1 + 2 + 1
      + (renderParams rs).length + 1 + (renderBlock b1).length)
    [b1] (fun x hx => hblk x (by simp [hx])) (renderBlocks_len bls)]
  rw [show ([b1] : List (List BlockItem)).reverse ++ bls = b1 :: bls
    from by simp]
  rw [show pos + nm.data.length + 1 + (renderParams ps).length + 1 + 2 + 1
      + (renderParams rs).length + 1 + (renderBlock b1).length
      + (renderBlocks bls).length
    = pos + (nm.data ++ (' ' :: (renderParams ps
        ++ (' ' :: '-' :: '>' :: (' ' :: (renderParams rs
            ++ (' ' :: (renderBlock b1 ++ renderBlocks bls)))))))).length
    from by
      simp only [List.length_append, List.length_cons]
      omega]

/-- The rendering of a valid declaration is nonempty and starts with a
letter, the first character of its name. -/
theorem renderDecl_head {d : Decl} (hv : ValidDecl d = true) :
    ∃ c tl, renderDecl d = c :: tl ∧ c.isAlpha = true := by
  obtain ⟨nm, ps, rs, blks⟩ := d
  unfold ValidDecl at hv
  dsimp only at hv
  simp only [Bool.and_eq_true] at hv
  have hnm := hv.1.1.1.1
  unfold validIdent at hnm
  rcases hm : nm.data with _ | ⟨c, tl⟩
  · rw [hm] at hnm
    exact Bool.noConfusion hnm
  · rw [hm] at hnm
    simp only [Bool.and_eq_true] at hnm
    refine ⟨c, tl ++ ((' ' :: renderParams ps)
      ++ ((' ' :: '-' :: '>' :: ' ' :: renderParams rs)
        ++ renderBlocks blks)), ?_, hnm.1⟩
    rw [renderDecl]
    dsimp only
    rw [hm]
    simp [List.append_assoc]

/-- C5: for every valid top-level declaration `D`, rendering `D` with
the canonical printer and parsing the result succeeds, and the parsed
`Program` is exactly the one-element sequence holding a declaration
structurally equal to `D`, with the whole rendering consumed. -/
theorem claim_C5 (d : Decl) (hv : ValidDecl d = true) :
    program (String.mk (renderDecl d))
      = .ok ([d], [], (renderDecl d).length) := by
  obtain ⟨c, tl, hd1, halpha⟩ := renderDecl_head hv
  rw [show program (String.mk (renderDecl d)) = programL (renderDecl d)
    from rfl]
  rw [programL]
  obtain ⟨m, hm⟩ : ∃ m, (renderDecl d).length = m + 1 :=
    ⟨(renderDecl d).length - 1, by rw [hd1]; simp⟩
  rw [hm]
  rw [declsLoop]
  rw [show wsLen (renderDecl d) = 0 from wsLen_eq_zero (by
    intro c2 cs2 h
    rw [hd1] at h
    injection h with h1 h2
    rw [← h1]
    exact alpha_not_ws halpha), List.drop_zero]
  rw [declP_render hv (0 + 0)]
  show declsLoop m [] (0 + 0 + (renderDecl d).length) [d]
    = Except.ok ([d], [], m + 1)
  rw [declsLoop]
  rw [show declP (List.drop (wsLen ([] : List Char)) [])
      ((0 + 0 + (renderDecl d).length) + wsLen ([] : List Char))
    = .error ⟨(0 + 0 + (renderDecl d).length) + wsLen ([] : List Char),
        "identifier"⟩ from rfl]
  dsimp only
  simp [hm]

/-- A concrete valid declaration — typed, array-typed and bare-identifier
parameters, a bare result, and two blocks holding a literal, a text
chunk, a nested block and nothing — round-trips through the canonical
printer and the parser. -/
theorem claim_C5_witness :
    ValidDecl ⟨"f",
      [⟨"a", some (.ty (.Array .Int))⟩, ⟨"b", some (.ident "tru")⟩],
      [⟨"a", none⟩],
      [[.lit 12, .chunk "x1", .blk [.lit 3]], []]⟩ = true ∧
    program (String.mk (renderDecl ⟨"f",
      [⟨"a", some (.ty (.Array .Int))⟩, ⟨"b", some (.ident "tru")⟩],
      [⟨"a", none⟩],
      [[.lit 12, .chunk "x1", .blk [.lit 3]], []]⟩))
      = .ok ([⟨"f",
          [⟨"a", some (.ty (.Array .Int))⟩, ⟨"b", some (.ident "tru")⟩],
          [⟨"a", none⟩],
          [[.lit 12, .chunk "x1", .blk [.lit 3]], []]⟩], [],
        (renderDecl ⟨"f",
          [⟨"a", some (.ty (.Array .Int))⟩, ⟨"b", some (.ident "tru")⟩],
          [⟨"a", none⟩],
          [[.lit 12, .chunk "x1", .blk [.lit 3]], []]⟩).length) :=
  ⟨by decide, claim_C5 _ (by decide)⟩

end FDSSL
